import Mathlib

/-!
Verification of the Myosotis storage engine (a versioned object store with a
cryptographically hash-chained commit log) against its natural-language
specification.  The definitions below are a shallow embedding of the Rust
sources: `node.rs` (values and nodes), `commit.rs` (mutations and commits),
`memory.rs` (the engine: canonical encoder, hashing, replay, commit,
checkpoints, historical queries, validation) and `storage.rs` (the load
header checks and load modes).  Rust `HashMap`s are modelled as association
lists kept sorted by key, so that list equality coincides with map equality
for every state the engine constructs; `u64`/`i64` are modelled as `Nat`/`Int`
with explicit reduction modulo `2 ^ 64` where the source relies on wrapping;
byte strings are lists of naturals below 256.
-/

namespace Myosotis

/-- Byte strings: lists of naturals (each below 256 for real data). -/
abbrev Bytes := List Nat

/-- Big-endian bytes of `n % 2^64`, as Rust's `u64::to_be_bytes`. -/
def u64be (n : Nat) : Bytes :=
  [n / 2 ^ 56 % 256, n / 2 ^ 48 % 256, n / 2 ^ 40 % 256, n / 2 ^ 32 % 256,
   n / 2 ^ 24 % 256, n / 2 ^ 16 % 256, n / 2 ^ 8 % 256, n % 256]

/-- Big-endian two's-complement bytes of an `i64`, as Rust's `i64::to_be_bytes`. -/
def i64be (v : Int) : Bytes := u64be ((v % (2 ^ 64 : Int)).toNat)

/-- UTF-8 encoding of one character (the standard 1-to-4 byte scheme). -/
def utf8Char (c : Char) : Bytes :=
  let n := c.toNat
  if n < 0x80 then [n]
  else if n < 0x800 then [0xC0 + n / 64, 0x80 + n % 64]
  else if n < 0x10000 then [0xE0 + n / 4096, 0x80 + n / 64 % 64, 0x80 + n % 64]
  else [0xF0 + n / 262144, 0x80 + n / 4096 % 64, 0x80 + n / 64 % 64, 0x80 + n % 64]

/-- UTF-8 bytes of a string, as Rust's `str::as_bytes`; its length is Rust's
`str::len`. -/
def utf8 (s : String) : Bytes := s.data.foldr (fun c acc => utf8Char c ++ acc) []

/-- Insertion into a list sorted by `≤`, used to model sorting collected keys. -/
def insSorted [LE α] [DecidableRel (α := α) (· ≤ ·)] (a : α) : List α → List α
  | [] => [a]
  | x :: xs => if a ≤ x then a :: x :: xs else x :: insSorted a xs

/-- Sorting by `≤` (insertion sort), modelling Rust's `sort`/`sort_unstable`
on collected keys. -/
def sortLe [LE α] [DecidableRel (α := α) (· ≤ ·)] : List α → List α
  | [] => []
  | x :: xs => insSorted x (sortLe xs)

/-! ## SHA-256

The repository hashes through the `sha2` crate; this is the standard FIPS
180-4 SHA-256 algorithm over byte strings, which that crate implements. -/

/-- Truncation to a 32-bit word. -/
def w32 (n : Nat) : Nat := n % 4294967296

/-- 32-bit right rotation. -/
def rotr32 (x n : Nat) : Nat := w32 ((x >>> n) ||| (x <<< (32 - n)))

/-- 32-bit bitwise complement. -/
def not32 (x : Nat) : Nat := 4294967295 - x % 4294967296

/-- SHA-256 round constants. -/
def shaK : List Nat :=
  [1116352408, 1899447441, 3049323471, 3921009573, 961987163, 1508970993,
   2453635748, 2870763221, 3624381080, 310598401, 607225278, 1426881987,
   1925078388, 2162078206, 2614888103, 3248222580, 3835390401, 4022224774,
   264347078, 604807628, 770255983, 1249150122, 1555081692, 1996064986,
   2554220882, 2821834349, 2952996808, 3210313671, 3336571891, 3584528711,
   113926993, 338241895, 666307205, 773529912, 1294757372, 1396182291,
   1695183700, 1986661051, 2177026350, 2456956037, 2730485921, 2820302411,
   3259730800, 3345764771, 3516065817, 3600352804, 4094571909, 275423344,
   430227734, 506948616, 659060556, 883997877, 958139571, 1322822218,
   1537002063, 1747873779, 1955562222, 2024104815, 2227730452, 2361852424,
   2428436474, 2756734187, 3204031479, 3329325298]

/-- SHA-256 initial hash state. -/
def shaH0 : List Nat :=
  [1779033703, 3144134277, 1013904242, 2773480762,
   1359893119, 2600822924, 528734635, 1541459225]

/-- `l.getD i 0`: word/byte access with default 0. -/
def nth (l : List Nat) (i : Nat) : Nat := l.getD i 0

/-- Split a byte list into 64-byte blocks; the fuel (initially the length,
which bounds the block count) makes the recursion structural. -/
def chunks64Go : Nat → List Nat → List (List Nat)
  | 0, _ => []
  | fuel + 1, l => if l.isEmpty then [] else l.take 64 :: chunks64Go fuel (l.drop 64)

/-- Split a padded message into 64-byte blocks. -/
def chunks64 (l : List Nat) : List (List Nat) := chunks64Go l.length l

/-- The first 16 message-schedule words of a 64-byte block. -/
def chunkWords (c : List Nat) : List Nat :=
  (List.range 16).map fun i =>
    nth c (4 * i) * 2 ^ 24 + nth c (4 * i + 1) * 2 ^ 16 + nth c (4 * i + 2) * 2 ^ 8 + nth c (4 * i + 3)

/-- Extends 16 schedule words to 64. -/
def msgSchedule (ws : List Nat) : List Nat :=
  (List.range 48).foldl
    (fun ws i =>
      let s0 := rotr32 (nth ws (i + 1)) 7 ^^^ rotr32 (nth ws (i + 1)) 18 ^^^ (nth ws (i + 1)) >>> 3
      let s1 := rotr32 (nth ws (i + 14)) 17 ^^^ rotr32 (nth ws (i + 14)) 19 ^^^ (nth ws (i + 14)) >>> 10
      ws ++ [w32 (nth ws i + s0 + nth ws (i + 9) + s1)])
    ws

/-- One SHA-256 round on the working variables `[a,b,c,d,e,f,g,h]`. -/
def shaRound (st : List Nat) (wi ki : Nat) : List Nat :=
  let a := nth st 0
  let b := nth st 1
  let c := nth st 2
  let d := nth st 3
  let e := nth st 4
  let f := nth st 5
  let g := nth st 6
  let h := nth st 7
  let s1 := rotr32 e 6 ^^^ rotr32 e 11 ^^^ rotr32 e 25
  let ch := (e &&& f) ^^^ (not32 e &&& g)
  let t1 := w32 (h + s1 + ch + ki + wi)
  let s0 := rotr32 a 2 ^^^ rotr32 a 13 ^^^ rotr32 a 22
  let mj := (a &&& b) ^^^ (a &&& c) ^^^ (b &&& c)
  let t2 := w32 (s0 + mj)
  [w32 (t1 + t2), a, b, c, w32 (d + t1), e, f, g]

/-- SHA-256 compression of one 64-byte block into the running hash. -/
def shaCompress (h : List Nat) (c : List Nat) : List Nat :=
  let w := msgSchedule (chunkWords c)
  let fin := (List.range 64).foldl (fun st i => shaRound st (nth w i) (nth shaK i)) h
  (List.range 8).map fun i => w32 (nth h i + nth fin i)

/-- SHA-256 of a byte string, as a list of 32 bytes. -/
def sha256 (msg : Bytes) : Bytes :=
  let L := msg.length
  let padded := msg ++ [0x80] ++ List.replicate ((119 - L % 64) % 64) 0 ++ u64be (8 * L)
  let final := (chunks64 padded).foldl shaCompress shaH0
  (final.map fun x => [x / 2 ^ 24 % 256, x / 2 ^ 16 % 256, x / 2 ^ 8 % 256, x % 256]).flatten

/-! ## Data model (`node.rs`, `commit.rs`) -/

/-- Node identifiers (`pub type NodeId = u64`). -/
abbrev NodeId := Nat

/-- `Value` from `node.rs`: the dynamically typed field values.  A Rust `f64`
is carried as its raw 64-bit pattern (`bits`); `HashMap<String, Value>` is an
association list. -/
inductive Value where
  | int (v : Int)
  | float (bits : Nat)
  | bool (b : Bool)
  | str (s : String)
  | ref (id : NodeId)
  | list (items : List Value)
  | map (entries : List (String × Value))

/-- Field maps of a node: `HashMap<String, Value>` as an association list. -/
abbrev Fields := List (String × Value)

/-- `Node` from `node.rs`. -/
structure Node where
  id : NodeId
  ty : String
  fields : Fields
  deleted : Bool

/-- `Mutation` as the engine (`memory.rs`), the tests and the spec use it:
four constructors.  The declaration in `commit.rs` lists only the first two;
see the C1 analysis, which records this divergence. -/
inductive Mutation where
  | createNode (id : NodeId) (ty : String)
  | setField (id : NodeId) (key : String) (value : Value)
  | deleteField (id : NodeId) (key : String)
  | deleteNode (id : NodeId)

/-- `Commit` from `commit.rs`; hashes are 32-byte lists. -/
structure Commit where
  id : Nat
  parent : Option Nat
  parent_hash : Option Bytes
  hash : Bytes
  message : Option String
  mutations : List Mutation

/-- `HashMap<NodeId, Node>` (a state) as an association list sorted by id. -/
abbrev State := List (NodeId × Node)

/-- `Checkpoint` from `memory.rs`. -/
structure Checkpoint where
  commit_id : Nat
  commit_hash : Bytes
  state_hash : Bytes
  state : State

/-- `Memory` from `memory.rs`: the engine's top level. -/
structure Memory where
  genesis_state : Option State
  genesis_state_hash : Option Bytes
  commits : List Commit
  checkpoints : List Checkpoint
  next_node_id : NodeId
  head_state : State
  pending_mutations : List Mutation

/-- `CHECKPOINT_INTERVAL` from `memory.rs`. -/
def CHECKPOINT_INTERVAL : Nat := 50

/-- `MyosotisError` from `error.rs` (the IO/serde cases carry no data the
engine inspects and are omitted from the shallow embedding). -/
inductive Err where
  | invariant (msg : String)
  | nodeNotFound (id : NodeId)
  | commitNotFound (id : Nat)
  | invalidInput (msg : String)
  | nodeDeleted (id : NodeId)
  | fieldNotFound (key : String)
  | deleteOnDeletedNode (id : NodeId)
  | deleteNonexistentNode (id : NodeId)
  | invalidCheckpoint
  | checkpointCommitMismatch
  | corruptCommitChain (msg : String)
  | corruptCommitHash
  | corruptParentHash
  | corruptCheckpointHash
  | corruptGenesisHash
  | invalidFileMagic
  | unsupportedFormatVersion (v : Nat)
  | missingFormatVersion
  | malformedFileStructure
  deriving DecidableEq

/-! ## Map operations

`HashMap::get`, `insert`, `remove`, `contains_key` over the association-list
model.  Inserts keep the list sorted by key, so that every map the engine
builds has a canonical representation and list equality is map equality. -/

/-- `HashMap::get` on a state. -/
def State.get (s : State) (id : NodeId) : Option Node :=
  (s.find? fun p => p.1 = id).map Prod.snd

/-- `HashMap::contains_key` on a state. -/
def State.containsKey (s : State) (id : NodeId) : Bool :=
  (s.find? fun p => p.1 = id).isSome

/-- `HashMap::insert` on a state (sorted-position insert or replace). -/
def State.insert (s : State) (id : NodeId) (n : Node) : State :=
  match s with
  | [] => [(id, n)]
  | (k, v) :: rest =>
    if id < k then (id, n) :: (k, v) :: rest
    else if id = k then (id, n) :: rest
    else (k, v) :: State.insert rest id n

/-- `get_mut` followed by an in-place update: rewrite the entry at `id`. -/
def State.modify (s : State) (id : NodeId) (f : Node → Node) : State :=
  s.map fun p => if p.1 = id then (p.1, f p.2) else p

/-- `HashMap::get` on a field map. -/
def Fields.get (fs : Fields) (k : String) : Option Value :=
  (fs.find? fun p => p.1 = k).map Prod.snd

/-- `HashMap::insert` on a field map (sorted-position insert or replace). -/
def Fields.insert (fs : Fields) (k : String) (v : Value) : Fields :=
  match fs with
  | [] => [(k, v)]
  | (k', v') :: rest =>
    if k < k' then (k, v) :: (k', v') :: rest
    else if k = k' then (k, v) :: rest
    else (k', v') :: Fields.insert rest k v

/-- `HashMap::remove` on a field map: the state after removing `k`. -/
def Fields.erase (fs : Fields) (k : String) : Fields :=
  match fs with
  | [] => []
  | (k', v') :: rest => if k' = k then rest else (k', v') :: Fields.erase rest k

/-- `map.get(key)` inside the canonical encoder, on `Value.map` entries. -/
def lookupV (entries : List (String × Value)) (k : String) : Option Value :=
  (entries.find? fun p => p.1 = k).map Prod.snd

theorem sizeOf_lookupV {entries : List (String × Value)} {k : String} {v : Value}
    (h : lookupV entries k = some v) : sizeOf v < sizeOf entries := by
  unfold lookupV at h
  match hf : entries.find? (fun p => p.1 = k) with
  | none => rw [hf] at h; simp at h
  | some p =>
    rw [hf] at h
    simp at h
    have hmem := List.mem_of_find?_eq_some hf
    have hlt := List.sizeOf_lt_of_mem hmem
    cases p with
    | mk a b =>
      simp at h
      subst h
      simp at hlt
      omega

/-! ## Canonical encoder (`Memory::write_value_canonical`)

The Rust function appends into a mutable buffer; the model threads the buffer
explicitly.  `writeValues` is the `for item in values` loop, `writeMapKeys`
the loop over sorted keys. -/

mutual

/-- `Memory::write_value_canonical` from `memory.rs`. -/
def Memory.write_value_canonical (buf : Bytes) (v : Value) : Bytes :=
  match v with
  | .int i => buf ++ [0x01] ++ i64be i
  | .float bits => buf ++ [0x02] ++ u64be bits
  | .bool b => buf ++ [0x03] ++ [if b then 0x01 else 0x00]
  | .str s => buf ++ [0x04] ++ u64be (utf8 s).length ++ utf8 s
  | .ref id => buf ++ [0x05] ++ u64be id
  | .list items => writeValues (buf ++ [0x06] ++ u64be items.length) items
  | .map entries =>
    let keys := sortLe (entries.map Prod.fst)
    writeMapKeys (buf ++ [0x07] ++ u64be keys.length) entries keys
  termination_by (sizeOf v, 0)
  decreasing_by
  all_goals simp_wf
  all_goals
    first
      | (exact Prod.Lex.left _ _ (sizeOf_lookupV _h))
      | (refine Prod.Lex.left _ _ ?_; simp; done)
      | (refine Prod.Lex.left _ _ ?_; simp; omega)
      | (refine Prod.Lex.left _ _ ?_; omega)
      | (refine Prod.Lex.right _ ?_; simp; done)
      | (refine Prod.Lex.right _ ?_; simp; omega)
      | (refine Prod.Lex.right _ ?_; omega)

/-- The `for item in values` loop of the `List` case. -/
def writeValues (buf : Bytes) (items : List Value) : Bytes :=
  match items with
  | [] => buf
  | v :: rest => writeValues (Memory.write_value_canonical buf v) rest
  termination_by (sizeOf items, 0)
  decreasing_by
  all_goals simp_wf
  all_goals
    first
      | (exact Prod.Lex.left _ _ (sizeOf_lookupV _h))
      | (refine Prod.Lex.left _ _ ?_; simp; done)
      | (refine Prod.Lex.left _ _ ?_; simp; omega)
      | (refine Prod.Lex.left _ _ ?_; omega)
      | (refine Prod.Lex.right _ ?_; simp; done)
      | (refine Prod.Lex.right _ ?_; simp; omega)
      | (refine Prod.Lex.right _ ?_; omega)

/-- The loop over sorted keys of the `Map` case. -/
def writeMapKeys (buf : Bytes) (entries : List (String × Value)) (keys : List String) : Bytes :=
  match keys with
  | [] => buf
  | k :: rest =>
    let b2 := buf ++ u64be (utf8 k).length ++ utf8 k
    match _h : lookupV entries k with
    | some mv => writeMapKeys (Memory.write_value_canonical b2 mv) entries rest
    | none => writeMapKeys b2 entries rest
  termination_by (sizeOf entries, sizeOf keys)
  decreasing_by
  all_goals simp_wf
  all_goals
    first
      | (exact Prod.Lex.left _ _ (sizeOf_lookupV _h))
      | (refine Prod.Lex.left _ _ ?_; simp; done)
      | (refine Prod.Lex.left _ _ ?_; simp; omega)
      | (refine Prod.Lex.left _ _ ?_; omega)
      | (refine Prod.Lex.right _ ?_; simp; done)
      | (refine Prod.Lex.right _ ?_; simp; omega)
      | (refine Prod.Lex.right _ ?_; omega)

end

/-! ## Hashing (`Memory::compute_commit_hash`, `Memory::compute_state_hash`) -/

/-- One iteration of the `for m in mutations` loop in
`Memory::compute_commit_hash`: append the canonical encoding of `m`. -/
def Memory.mutation_bytes (buf : Bytes) (m : Mutation) : Bytes :=
  match m with
  | .createNode id ty => buf ++ [0x01] ++ u64be id ++ u64be (utf8 ty).length ++ utf8 ty
  | .setField id key value =>
    Memory.write_value_canonical (buf ++ [0x02] ++ u64be id ++ u64be (utf8 key).length ++ utf8 key) value
  | .deleteField id key => buf ++ [0x03] ++ u64be id ++ u64be (utf8 key).length ++ utf8 key
  | .deleteNode id => buf ++ [0x04] ++ u64be id

/-- `Memory::compute_commit_hash` from `memory.rs`. -/
def Memory.compute_commit_hash (parent_hash : Option Bytes) (message : Option String)
    (mutations : List Mutation) : Bytes :=
  let bytes : Bytes :=
    match parent_hash with
    | some ph => ph
    | none => List.replicate 32 0
  let bytes : Bytes :=
    match message with
    | some msg => bytes ++ u64be (utf8 msg).length ++ utf8 msg
    | none => bytes ++ u64be 0
  sha256 (mutations.foldl Memory.mutation_bytes bytes)

/-- The loop over a node's sorted field keys in `Memory::compute_state_hash`. -/
def writeNodeFields (buf : Bytes) (fields : Fields) (keys : List String) : Bytes :=
  match keys with
  | [] => buf
  | k :: rest =>
    let b2 := buf ++ u64be (utf8 k).length ++ utf8 k
    match Fields.get fields k with
    | some v => writeNodeFields (Memory.write_value_canonical b2 v) fields rest
    | none => writeNodeFields b2 fields rest

/-- The loop over sorted node ids in `Memory::compute_state_hash`. -/
def stateHashBytes (buf : Bytes) (state : State) (ids : List NodeId) : Bytes :=
  match ids with
  | [] => buf
  | id :: rest =>
    match State.get state id with
    | some node =>
      let b := buf ++ u64be id ++ u64be (utf8 node.ty).length ++ utf8 node.ty
        ++ [if node.deleted then 1 else 0]
      let fkeys := sortLe (node.fields.map Prod.fst)
      let b := b ++ u64be fkeys.length
      stateHashBytes (writeNodeFields b node.fields fkeys) state rest
    | none => stateHashBytes buf state rest

/-- `Memory::compute_state_hash` from `memory.rs`. -/
def Memory.compute_state_hash (state : State) : Bytes :=
  sha256 (stateHashBytes [] state (sortLe (state.map Prod.fst)))

/-! ## Reference validity (`check_value` in `memory.rs`)

The same local function appears twice in the source (inside `commit` and
inside `replay_from`), with identical text; it is modelled once. -/

mutual

/-- `check_value` from `memory.rs`: values of a `SetField` may not contain a
`Ref` to a node id missing from the current state. -/
def check_value (v : Value) (state : State) : Except Err Unit :=
  match v with
  | .ref rid =>
    if state.containsKey rid then .ok ()
    else .error (.invariant ("reference to missing node " ++ toString rid))
  | .list vec => checkValues vec state
  | .map entries => checkMapValues entries state
  | _ => .ok ()

/-- The `for item in vec` loop of `check_value`. -/
def checkValues (items : List Value) (state : State) : Except Err Unit :=
  match items with
  | [] => .ok ()
  | v :: rest =>
    match check_value v state with
    | .error e => .error e
    | .ok _ => checkValues rest state

/-- The `for item in map.values()` loop of `check_value`. -/
def checkMapValues (entries : List (String × Value)) (state : State) : Except Err Unit :=
  match entries with
  | [] => .ok ()
  | e :: rest =>
    match check_value e.2 state with
    | .error e' => .error e'
    | .ok _ => checkMapValues rest state

end

/-! ## Structural equality (Rust `PartialEq`)

`Value`, `Node` and the state maps derive `PartialEq` in the source.  An
`f64` compares by IEEE-754 equality (`NaN` equals nothing, `+0.0 == -0.0`);
a `HashMap` compares by equal length plus pointwise lookup. -/

/-- Whether a 64-bit pattern is an IEEE-754 NaN. -/
def f64IsNaN (x : Nat) : Bool := (x / 2 ^ 52 % 2 ^ 11 == 2047) && (x % 2 ^ 52 != 0)

/-- Whether a 64-bit pattern is an IEEE-754 zero (`+0.0` or `-0.0`). -/
def f64IsZero (x : Nat) : Bool := (x == 0) || (x == 2 ^ 63)

/-- IEEE-754 `==` on two `f64` bit patterns (Rust's `f64::eq`). -/
def f64Beq (a b : Nat) : Bool :=
  !f64IsNaN a && !f64IsNaN b && (a == b || (f64IsZero a && f64IsZero b))

mutual

/-- Rust's derived `PartialEq` on `Value`. -/
def valueBeq (a b : Value) : Bool :=
  match a, b with
  | .int x, .int y => x == y
  | .float x, .float y => f64Beq x y
  | .bool x, .bool y => x == y
  | .str x, .str y => x == y
  | .ref x, .ref y => x == y
  | .list xs, .list ys => valueListBeq xs ys
  | .map xs, .map ys => (xs.length == ys.length) && valueMapSubBeq xs ys
  | _, _ => false
  termination_by sizeOf a + sizeOf b
  decreasing_by
  all_goals (simp; try omega)

/-- Rust's `PartialEq` on `Vec<Value>`: pointwise. -/
def valueListBeq (xs ys : List Value) : Bool :=
  match xs, ys with
  | [], [] => true
  | x :: xr, y :: yr => valueBeq x y && valueListBeq xr yr
  | _, _ => false
  termination_by sizeOf xs + sizeOf ys
  decreasing_by
  all_goals (simp; try omega)

/-- The `iter().all(...)` half of `HashMap` equality: every entry of `xs`
looks up in `ys` with an equal value. -/
def valueMapSubBeq (xs ys : List (String × Value)) : Bool :=
  match xs with
  | [] => true
  | (k, v) :: rest =>
    (match _h : lookupV ys k with
     | some w => valueBeq v w
     | none => false) && valueMapSubBeq rest ys
  termination_by sizeOf xs + sizeOf ys
  decreasing_by
  · have := sizeOf_lookupV _h; simp; omega
  · simp; try omega

end

/-- Rust's `PartialEq` on a `HashMap<String, Value>` of fields. -/
def fieldsBeq (fs gs : Fields) : Bool :=
  (fs.length == gs.length) &&
    fs.all fun p =>
      match Fields.get gs p.1 with
      | some w => valueBeq p.2 w
      | none => false

/-- Rust's derived `PartialEq` on `Node`. -/
def nodeBeq (n m : Node) : Bool :=
  n.id == m.id && n.ty == m.ty && fieldsBeq n.fields m.fields && n.deleted == m.deleted

/-- Rust's `PartialEq` on a state (`HashMap<NodeId, Node>`). -/
def stateBeq (s t : State) : Bool :=
  (s.length == t.length) &&
    s.all fun p =>
      match State.get t p.1 with
      | some n => nodeBeq p.2 n
      | none => false

/-! ## Mutation application

Three variants appear in the source: `Memory::apply_mutation` (stage time, on
the head, no reference check), the loop body of `Memory::replay_from`
(reference check, real type tags), and the validation loop inside
`Memory::commit` (reference check, but created nodes get an empty type tag).
Each is modelled separately, mirroring its text. -/

/-- `Memory::apply_mutation` from `memory.rs` (operates on the head state). -/
def Memory.apply_mutation (head : State) (m : Mutation) : Except Err State :=
  match m with
  | .createNode id ty =>
    if head.containsKey id then .error (.invariant ("create existing id " ++ toString id))
    else .ok (head.insert id ⟨id, ty, [], false⟩)
  | .setField id key value =>
    match head.get id with
    | none => .error (.nodeNotFound id)
    | some node =>
      if node.deleted then .error (.nodeDeleted id)
      else .ok (head.modify id fun n => { n with fields := n.fields.insert key value })
  | .deleteField id key =>
    match head.get id with
    | none => .error (.deleteNonexistentNode id)
    | some node =>
      if node.deleted then .error (.deleteOnDeletedNode id)
      else if (node.fields.get key).isNone then .error (.fieldNotFound key)
      else .ok (head.modify id fun n => { n with fields := n.fields.erase key })
  | .deleteNode id =>
    match head.get id with
    | none => .error (.deleteNonexistentNode id)
    | some node =>
      if node.deleted then .error (.deleteOnDeletedNode id)
      else .ok (head.modify id fun n => { n with deleted := true })

/-- The per-mutation body of `Memory::replay_from`. -/
def replayMutation (state : State) (m : Mutation) : Except Err State :=
  match m with
  | .createNode id ty =>
    if state.containsKey id then .error (.invariant ("duplicate create node " ++ toString id))
    else .ok (state.insert id ⟨id, ty, [], false⟩)
  | .setField id key value =>
    match state.get id with
    | none => .error (.invariant ("set before create " ++ toString id))
    | some existing =>
      if existing.deleted then .error (.nodeDeleted id)
      else
        match check_value value state with
        | .error e => .error e
        | .ok _ => .ok (state.modify id fun n => { n with fields := n.fields.insert key value })
  | .deleteField id key =>
    match state.get id with
    | none => .error (.deleteNonexistentNode id)
    | some node =>
      if node.deleted then .error (.deleteOnDeletedNode id)
      else if (node.fields.get key).isNone then .error (.fieldNotFound key)
      else .ok (state.modify id fun n => { n with fields := n.fields.erase key })
  | .deleteNode id =>
    match state.get id with
    | none => .error (.deleteNonexistentNode id)
    | some node =>
      if node.deleted then .error (.deleteOnDeletedNode id)
      else .ok (state.modify id fun n => { n with deleted := true })

/-- The `for m in &commit.mutations` loop of `Memory::replay_from`. -/
def replayMutations (state : State) : List Mutation → Except Err State
  | [] => .ok state
  | m :: rest =>
    match replayMutation state m with
    | .error e => .error e
    | .ok s' => replayMutations s' rest

/-- `Memory::replay_from` from `memory.rs`. -/
def Memory.replay_from (state : State) : List Commit → Except Err State
  | [] => .ok state
  | c :: rest =>
    match replayMutations state c.mutations with
    | .error e => .error e
    | .ok s' => Memory.replay_from s' rest

/-- `Memory::replay` from `memory.rs`: replay from the empty state. -/
def Memory.replay (commits : List Commit) : Except Err State :=
  Memory.replay_from [] commits

/-- The per-mutation body of the validation loop inside `Memory::commit`
(note the created node's type tag is `String::new()` there). -/
def commitCheckMutation (base : State) (m : Mutation) : Except Err State :=
  match m with
  | .createNode id _ty =>
    if base.containsKey id then
      .error (.invariant ("create node id " ++ toString id ++ " already exists"))
    else .ok (base.insert id ⟨id, "", [], false⟩)
  | .setField id key value =>
    match base.get id with
    | none => .error (.invariant ("set on missing node " ++ toString id))
    | some existing =>
      if existing.deleted then .error (.nodeDeleted id)
      else
        match check_value value base with
        | .error e => .error e
        | .ok _ => .ok (base.modify id fun n => { n with fields := n.fields.insert key value })
  | .deleteField id key =>
    match base.get id with
    | none => .error (.deleteNonexistentNode id)
    | some node =>
      if node.deleted then .error (.deleteOnDeletedNode id)
      else if (node.fields.get key).isNone then .error (.fieldNotFound key)
      else .ok (base.modify id fun n => { n with fields := n.fields.erase key })
  | .deleteNode id =>
    match base.get id with
    | none => .error (.deleteNonexistentNode id)
    | some node =>
      if node.deleted then .error (.deleteOnDeletedNode id)
      else .ok (base.modify id fun n => { n with deleted := true })

/-- The `for m in &mutations` validation loop of `Memory::commit`. -/
def commitCheckMutations (base : State) : List Mutation → Except Err State
  | [] => .ok base
  | m :: rest =>
    match commitCheckMutation base m with
    | .error e => .error e
    | .ok s' => commitCheckMutations s' rest

/-! ## The engine (`Memory`)

Rust methods on `&mut self` are modelled as functions returning the result
together with the updated engine; every early `return Err` leaves `self`
untouched in the source and correspondingly returns the input engine. -/

/-- `Memory::new`. -/
def Memory.new : Memory := ⟨none, none, [], [], 1, [], []⟩

/-- `Memory::create`. -/
def Memory.create (self : Memory) (ty : String) : NodeId × Memory :=
  let id := self.next_node_id
  let node : Node := ⟨id, ty, [], false⟩
  let m : Mutation := .createNode id ty
  (id, { self with
          next_node_id := id + 1,
          head_state := self.head_state.insert id node,
          pending_mutations := self.pending_mutations ++ [m] })

/-- `Memory::set`. -/
def Memory.set (self : Memory) (id : NodeId) (key : String) (value : Value) :
    Except Err Unit × Memory :=
  match self.head_state.get id with
  | none => (.error (.nodeNotFound id), self)
  | some node =>
    if node.deleted then (.error (.nodeDeleted id), self)
    else
      let m : Mutation := .setField id key value
      match Memory.apply_mutation self.head_state m with
      | .error e => (.error e, self)
      | .ok head' =>
        (.ok (),
          { self with
              head_state := head',
              pending_mutations := self.pending_mutations ++ [m] })

/-- `Memory::delete_field`. -/
def Memory.delete_field (self : Memory) (id : NodeId) (key : String) :
    Except Err Unit × Memory :=
  match self.head_state.get id with
  | none => (.error (.deleteNonexistentNode id), self)
  | some node =>
    if node.deleted then (.error (.deleteOnDeletedNode id), self)
    else if (node.fields.get key).isNone then (.error (.fieldNotFound key), self)
    else
      let m : Mutation := .deleteField id key
      match Memory.apply_mutation self.head_state m with
      | .error e => (.error e, self)
      | .ok head' =>
        (.ok (),
          { self with
              head_state := head',
              pending_mutations := self.pending_mutations ++ [m] })

/-- `Memory::delete_node`. -/
def Memory.delete_node (self : Memory) (id : NodeId) : Except Err Unit × Memory :=
  match self.head_state.get id with
  | none => (.error (.deleteNonexistentNode id), self)
  | some node =>
    if node.deleted then (.error (.deleteOnDeletedNode id), self)
    else
      let m : Mutation := .deleteNode id
      match Memory.apply_mutation self.head_state m with
      | .error e => (.error e, self)
      | .ok head' =>
        (.ok (),
          { self with
              head_state := head',
              pending_mutations := self.pending_mutations ++ [m] })

/-- `Memory::commit` from `memory.rs`.  The commit id/parent computation, the
contiguity guards, the re-validation replay (note: `Self::replay`, i.e. from
the empty state), the pending-mutation validation loop, the hash-chain
extension, the checkpoint emission every `CHECKPOINT_INTERVAL` commits and
the clearing of the pending buffer are all mirrored in order. -/
def Memory.commit (self : Memory) (message : Option String) : Except Err Unit × Memory :=
  if self.pending_mutations.isEmpty then
    (.error (.invalidInput "no pending mutations"), self)
  else
    let commit_id := match self.commits.getLast? with
      | some c => c.id + 1
      | none => 1
    let parent := self.commits.getLast?.map (·.id)
    let contiguityErr : Option Err :=
      match parent with
      | some p =>
        if p + 1 ≠ commit_id then
          some (.invariant ("invalid parent " ++ toString p ++ " for commit " ++ toString commit_id))
        else none
      | none =>
        if commit_id ≠ 1 then some (.invariant "first commit id must be 1") else none
    match contiguityErr with
    | some e => (.error e, self)
    | none =>
      let mutations := self.pending_mutations
      match Memory.replay self.commits with
      | .error e => (.error e, self)
      | .ok base0 =>
        match commitCheckMutations base0 mutations with
        | .error e => (.error e, self)
        | .ok _ =>
          let parent_hash := match self.commits.getLast? with
            | some last => some last.hash
            | none => self.genesis_state_hash
          let hash := Memory.compute_commit_hash parent_hash message mutations
          let commit : Commit := ⟨commit_id, parent, parent_hash, hash, message, mutations⟩
          let commits' := self.commits ++ [commit]
          let withCommit := { self with commits := commits' }
          if commits'.length % CHECKPOINT_INTERVAL = 0 then
            match commits'.getLast? with
            | none =>
              (.error (.corruptCommitChain "missing last commit after push"), withCommit)
            | some last =>
              let state_hash := Memory.compute_state_hash withCommit.head_state
              let cp : Checkpoint := ⟨last.id, last.hash, state_hash, withCommit.head_state⟩
              (.ok (), { withCommit with
                          checkpoints := withCommit.checkpoints ++ [cp],
                          pending_mutations := [] })
          else
            (.ok (), { withCommit with pending_mutations := [] })

/-- Rust's `Iterator::max_by_key` on `commit_id` over checkpoints: the last
element attaining the maximum. -/
def maxByCommitId (l : List Checkpoint) : Option Checkpoint :=
  l.foldl
    (fun acc c =>
      match acc with
      | none => some c
      | some b => if b.commit_id ≤ c.commit_id then some c else some b)
    none

/-- `Memory::state_at_commit` from `memory.rs`. -/
def Memory.state_at_commit (self : Memory) (target_commit_id : Nat) : Except Err State :=
  match self.commits.findIdx? (fun c => c.id = target_commit_id) with
  | none => .error (.commitNotFound target_commit_id)
  | some target_index =>
    match maxByCommitId (self.checkpoints.filter fun c => c.commit_id ≤ target_commit_id) with
    | some cp =>
      match self.commits.findIdx? (fun c => c.id = cp.commit_id) with
      | none => .error .invalidCheckpoint
      | some pos =>
        let start_index := pos + 1
        if target_index + 1 < start_index then .error .invalidCheckpoint
        else Memory.replay_from cp.state ((self.commits.take (target_index + 1)).drop start_index)
    | none =>
      Memory.replay_from (self.genesis_state.getD []) ((self.commits.take (target_index + 1)).drop 0)

/-- `{:?}` rendering of an `Option<u64>`, used in a validation message. -/
def optionRepr : Option Nat → String
  | none => "None"
  | some n => "Some(" ++ toString n ++ ")"

/-- The `for (i, commit) in self.commits.iter().enumerate()` loop of
`Memory::validate_with_mode`; `prev` is the commit at `i - 1` when `i > 0`.
(The source fetches the predecessor hash through `commits.get(i - 1)` with an
unreachable `CorruptCommitChain` fallback; here the predecessor is at hand.) -/
def validateCommitsLoop (verify_hashes : Bool) (genesis_hash : Option Bytes) :
    Option Commit → List Commit → Except Err Unit
  | _, [] => .ok ()
  | prev, c :: rest =>
    let step : Except Err Unit :=
      match prev with
      | none =>
        if c.parent.isSome then .error (.invariant "first commit must have no parent")
        else if c.parent_hash ≠ genesis_hash then .error .corruptParentHash
        else .ok ()
      | some p =>
        if c.id ≠ p.id + 1 then
          .error (.invariant ("commit id " ++ toString c.id ++ " is not sequential after " ++ toString p.id))
        else if c.parent ≠ some p.id then
          .error (.invariant ("commit " ++ toString c.id ++ " has invalid parent " ++ optionRepr c.parent ++ ", expected " ++ toString p.id))
        else if c.parent_hash ≠ some p.hash then .error .corruptParentHash
        else .ok ()
    match step with
    | .error e => .error e
    | .ok _ =>
      if verify_hashes ∧ c.hash ≠ Memory.compute_commit_hash c.parent_hash c.message c.mutations then
        .error .corruptCommitHash
      else validateCommitsLoop verify_hashes genesis_hash (some c) rest

/-- The `for checkpoint in &self.checkpoints` loop of
`Memory::validate_with_mode`. -/
def validateCheckpointsLoop (verify_hashes : Bool) (commits : List Commit) :
    List Checkpoint → Except Err Unit
  | [] => .ok ()
  | cp :: rest =>
    match commits.find? (fun c => c.id = cp.commit_id) with
    | none => .error .checkpointCommitMismatch
    | some c =>
      if c.hash ≠ cp.commit_hash then .error .checkpointCommitMismatch
      else if verify_hashes ∧ Memory.compute_state_hash cp.state ≠ cp.state_hash then
        .error .corruptCheckpointHash
      else validateCheckpointsLoop verify_hashes commits rest

/-- The semantic-replay anchor choice shared by `Memory::validate_with_mode`
and `validate_and_build_head` in `storage.rs`: replay from the latest
checkpoint when one exists, else from the genesis snapshot (or empty). -/
def replayFromLatestAnchor (self : Memory) : Except Err State :=
  match maxByCommitId self.checkpoints with
  | some cp =>
    match self.commits.findIdx? (fun c => c.id = cp.commit_id) with
    | none => .error .invalidCheckpoint
    | some pos => Memory.replay_from cp.state (self.commits.drop (pos + 1))
  | none => Memory.replay_from (self.genesis_state.getD []) self.commits

/-- `Memory::validate_with_mode` from `memory.rs`. -/
def Memory.validate_with_mode (self : Memory) (verify_hashes : Bool) : Except Err Unit :=
  let genesisCheck : Except Err Unit :=
    match self.genesis_state with
    | some gs =>
      if self.genesis_state_hash ≠ some (Memory.compute_state_hash gs) then
        .error .corruptGenesisHash
      else .ok ()
    | none =>
      if self.genesis_state_hash.isSome then .error .corruptGenesisHash else .ok ()
  match genesisCheck with
  | .error e => .error e
  | .ok _ =>
    match validateCommitsLoop verify_hashes self.genesis_state_hash none self.commits with
    | .error e => .error e
    | .ok _ =>
      match validateCheckpointsLoop verify_hashes self.commits self.checkpoints with
      | .error e => .error e
      | .ok _ =>
        match replayFromLatestAnchor self with
        | .error e => .error e
        | .ok state =>
          let max_id := (state.map Prod.fst).foldl max 0
          if self.next_node_id ≤ max_id then
            .error (.invariant ("next_node_id " ++ toString self.next_node_id ++ " <= max created id " ++ toString max_id))
          else if !self.head_state.isEmpty && !stateBeq self.head_state state then
            .error (.invariant "head_state does not match replayed state")
          else .ok ()

/-- `Memory::validate`. -/
def Memory.validate (self : Memory) : Except Err Unit :=
  self.validate_with_mode true

/-! ## Storage (`storage.rs`): load modes and the header checks -/

/-- `FILE_MAGIC` from `storage.rs`. -/
def FILE_MAGIC : String := "MYOSOTIS"

/-- `FORMAT_VERSION` from `storage.rs`. -/
def FORMAT_VERSION : Nat := 1

/-- `LoadMode` from `storage.rs`; `lenient` stands for the source's
permissive recovery mode (hash recomputation skipped). -/
inductive LoadMode where
  | strict
  | lenient
  deriving DecidableEq

/-- `validate_and_build_head` from `storage.rs`: validate under the mode,
then rebuild the head by replaying from the latest anchor and clear the
pending buffer. -/
def validate_and_build_head (mem : Memory) (mode : LoadMode) : Except Err Memory :=
  let verify_hashes := mode = LoadMode.strict
  match mem.validate_with_mode verify_hashes with
  | .error e => .error e
  | .ok _ =>
    match replayFromLatestAnchor mem with
    | .error e => .error e
    | .ok state => .ok { mem with head_state := state, pending_mutations := [] }

/-- Outcome of the header inspection in `load_with_mode`: parse as the
current schema or as the legacy (pre-versioning) schema. -/
inductive HeaderOutcome where
  | currentSchema
  | legacySchema
  deriving DecidableEq

/-- The header logic of `load_with_mode` from `storage.rs`, over the parsed
JSON root.  `magic_field` is `None` when the key is absent, `Some None` when
present but not a string, `Some (Some s)` when a string; `version_field`
likewise with `as_u64`.  The `as u32` truncation of the version is the
explicit `% 2 ^ 32`. -/
def load_header (magic_field : Option (Option String)) (version_field : Option (Option Nat)) :
    Except Err HeaderOutcome :=
  let has_magic := magic_field.isSome
  let has_version := version_field.isSome
  if has_magic ∧ ¬ has_version then .error .missingFormatVersion
  else
    match version_field with
    | some vf =>
      match vf with
      | none => .error .missingFormatVersion
      | some v64 =>
        let version := v64 % 2 ^ 32
        if version = 0 then .error .missingFormatVersion
        else if version > FORMAT_VERSION then .error (.unsupportedFormatVersion version)
        else
          match magic_field with
          | some (some magic) =>
            if magic ≠ FILE_MAGIC then .error .invalidFileMagic else .ok .currentSchema
          | _ => .error .invalidFileMagic
    | none =>
      if has_magic then .error .invalidFileMagic
      else .ok .legacySchema

/-! ## Theorems: the canonical encoder accumulates by appending -/

theorem writeValues_shift (items : List Value)
    (ih : ∀ v ∈ items, ∀ buf : Bytes,
      Memory.write_value_canonical buf v = buf ++ Memory.write_value_canonical [] v) :
    ∀ buf, writeValues buf items = buf ++ writeValues [] items := by
  induction items with
  | nil => intro buf; simp [writeValues]
  | cons v rest ihr =>
    intro buf
    have hrest : ∀ buf, writeValues buf rest = buf ++ writeValues [] rest :=
      ihr fun w hw => ih w (List.mem_cons_of_mem _ hw)
    simp only [writeValues]
    rw [hrest (Memory.write_value_canonical buf v), hrest (Memory.write_value_canonical [] v),
      ih v (List.mem_cons_self _ _) buf]
    simp

theorem writeMapKeys_cons_some (buf : Bytes) (entries : List (String × Value))
    (k : String) (rest : List String) (mv : Value) (hl : lookupV entries k = some mv) :
    writeMapKeys buf entries (k :: rest)
      = writeMapKeys (Memory.write_value_canonical (buf ++ u64be (utf8 k).length ++ utf8 k) mv) entries rest := by
  rw [writeMapKeys]
  split
  · rename_i x heq
    rw [hl] at heq
    cases heq
    rfl
  · rename_i heq
    rw [hl] at heq
    cases heq

theorem writeMapKeys_cons_none (buf : Bytes) (entries : List (String × Value))
    (k : String) (rest : List String) (hl : lookupV entries k = none) :
    writeMapKeys buf entries (k :: rest)
      = writeMapKeys (buf ++ u64be (utf8 k).length ++ utf8 k) entries rest := by
  rw [writeMapKeys]
  split
  · rename_i x heq
    rw [hl] at heq
    cases heq
  · rfl

theorem writeMapKeys_shift (entries : List (String × Value)) (keys : List String)
    (ih : ∀ k v, lookupV entries k = some v → ∀ buf : Bytes,
      Memory.write_value_canonical buf v = buf ++ Memory.write_value_canonical [] v) :
    ∀ buf, writeMapKeys buf entries keys = buf ++ writeMapKeys [] entries keys := by
  induction keys with
  | nil => intro buf; simp [writeMapKeys]
  | cons k rest ihr =>
    intro buf
    cases hl : lookupV entries k with
    | none =>
      rw [writeMapKeys_cons_none buf entries k rest hl,
        writeMapKeys_cons_none ([] : Bytes) entries k rest hl,
        ihr (buf ++ u64be (utf8 k).length ++ utf8 k),
        ihr (([] : Bytes) ++ u64be (utf8 k).length ++ utf8 k)]
      simp
    | some mv =>
      rw [writeMapKeys_cons_some buf entries k rest mv hl,
        writeMapKeys_cons_some ([] : Bytes) entries k rest mv hl,
        ihr (Memory.write_value_canonical (buf ++ u64be (utf8 k).length ++ utf8 k) mv),
        ihr (Memory.write_value_canonical (([] : Bytes) ++ u64be (utf8 k).length ++ utf8 k) mv),
        ih k mv hl (buf ++ u64be (utf8 k).length ++ utf8 k),
        ih k mv hl (([] : Bytes) ++ u64be (utf8 k).length ++ utf8 k)]
      simp

theorem write_value_canonical_shift_aux :
    ∀ n : Nat, ∀ v : Value, sizeOf v ≤ n → ∀ buf : Bytes,
      Memory.write_value_canonical buf v = buf ++ Memory.write_value_canonical [] v := by
  intro n
  induction n using Nat.strong_induction_on with
  | _ n ihn =>
    intro v hv buf
    cases v with
    | int i => simp [Memory.write_value_canonical]
    | float bits => simp [Memory.write_value_canonical]
    | bool b => simp [Memory.write_value_canonical]
    | str s => simp [Memory.write_value_canonical]
    | ref id => simp [Memory.write_value_canonical]
    | list items =>
      have hsub : ∀ w ∈ items, ∀ b : Bytes,
          Memory.write_value_canonical b w = b ++ Memory.write_value_canonical [] w := by
        intro w hw b
        have h1 : sizeOf w < sizeOf (Value.list items) := by
          have := List.sizeOf_lt_of_mem hw
          simp
          omega
        exact ihn (sizeOf w) (by omega) w le_rfl b
      rw [Memory.write_value_canonical, Memory.write_value_canonical]
      rw [writeValues_shift items hsub (buf ++ [0x06] ++ u64be items.length),
        writeValues_shift items hsub (([] : Bytes) ++ [0x06] ++ u64be items.length)]
      simp
    | map entries =>
      have hsub : ∀ k w, lookupV entries k = some w → ∀ b : Bytes,
          Memory.write_value_canonical b w = b ++ Memory.write_value_canonical [] w := by
        intro k w hw b
        have h1 : sizeOf w < sizeOf (Value.map entries) := by
          have := sizeOf_lookupV hw
          simp
          omega
        exact ihn (sizeOf w) (by omega) w le_rfl b
      rw [Memory.write_value_canonical, Memory.write_value_canonical]
      rw [writeMapKeys_shift entries (sortLe (entries.map Prod.fst)) hsub
          (buf ++ [0x07] ++ u64be (sortLe (entries.map Prod.fst)).length),
        writeMapKeys_shift entries (sortLe (entries.map Prod.fst)) hsub
          (([] : Bytes) ++ [0x07] ++ u64be (sortLe (entries.map Prod.fst)).length)]
      simp

/-- The canonical value encoder only appends: encoding `v` onto `buf` is
`buf` followed by the encoding of `v` onto the empty buffer. -/
theorem write_value_canonical_shift (v : Value) (buf : Bytes) :
    Memory.write_value_canonical buf v = buf ++ Memory.write_value_canonical [] v :=
  write_value_canonical_shift_aux (sizeOf v) v le_rfl buf

/-- The per-mutation encoder only appends. -/
theorem mutation_bytes_shift (m : Mutation) (buf : Bytes) :
    Memory.mutation_bytes buf m = buf ++ Memory.mutation_bytes [] m := by
  cases m with
  | createNode id ty => simp [Memory.mutation_bytes]
  | setField id key value =>
    simp only [Memory.mutation_bytes]
    rw [write_value_canonical_shift value (buf ++ [0x02] ++ u64be id ++ u64be (utf8 key).length ++ utf8 key),
      write_value_canonical_shift value (([] : Bytes) ++ [0x02] ++ u64be id ++ u64be (utf8 key).length ++ utf8 key)]
    simp
  | deleteField id key => simp [Memory.mutation_bytes]
  | deleteNode id => simp [Memory.mutation_bytes]

/-- Spec side of the commit-hash preimage: the parent hash or 32 zero bytes. -/
def parent_or_zero32 (p : Option Bytes) : Bytes :=
  match p with
  | some ph => ph
  | none => List.replicate 32 0

/-- Spec side: the framed message (`u64` length then bytes, or a `u64` zero). -/
def message_framed (m : Option String) : Bytes :=
  match m with
  | some s => u64be (utf8 s).length ++ utf8 s
  | none => u64be 0

/-- Spec side: the canonical encodings of the mutations, concatenated in order. -/
def canonical_mutations (ms : List Mutation) : Bytes :=
  (ms.map (Memory.mutation_bytes [])).flatten

theorem foldl_mutation_bytes (ms : List Mutation) :
    ∀ buf : Bytes, ms.foldl Memory.mutation_bytes buf = buf ++ canonical_mutations ms := by
  induction ms with
  | nil => intro buf; simp [canonical_mutations]
  | cons m rest ih =>
    intro buf
    simp only [List.foldl_cons]
    rw [ih (Memory.mutation_bytes buf m), mutation_bytes_shift m buf]
    simp [canonical_mutations]

/-! ## Claim C6: the commit hash preimage -/

/-- C6.  `compute_commit_hash` is the SHA-256 digest of: the parent hash (or
32 zero bytes when absent), then the message framed as a `u64` big-endian
length followed by its UTF-8 bytes (a `u64` zero when absent), then the
canonical encoding of the mutations in order. -/
theorem commit_hash_is_sha256_of_framed_preimage
    (parent_hash : Option Bytes) (message : Option String) (mutations : List Mutation) :
    Memory.compute_commit_hash parent_hash message mutations
      = sha256 (parent_or_zero32 parent_hash ++ message_framed message
          ++ canonical_mutations mutations) := by
  cases parent_hash <;> cases message <;>
    simp [Memory.compute_commit_hash, parent_or_zero32, message_framed, foldl_mutation_bytes]

/-! ## Claim C10: empty message versus absent message -/

/-- C10.  For every optional parent hash and mutation sequence, the commit
hash with message `Some("")` equals the commit hash with message `None`: the
empty frame is a `u64` zero length with no bytes, identical to the
no-message frame. -/
theorem commit_hash_empty_message_eq_none
    (parent_hash : Option Bytes) (mutations : List Mutation) :
    Memory.compute_commit_hash parent_hash (some "") mutations
      = Memory.compute_commit_hash parent_hash none mutations := by
  have h8 : utf8 "" = [] := rfl
  cases parent_hash <;> simp [Memory.compute_commit_hash, h8]

/-! ## Claim C1: the four mutation constructors and their tags

The canonical stream below exercises all four mutation constructors the
engine (`memory.rs`) encodes, with tags 0x01–0x04; `commit.rs` however
declares only `CreateNode` and `SetField`, so the crate as shipped does not
compile (see the claim record). -/

/-- C1 (evidence).  The canonical encoding of one mutation of each of the
four kinds, showing the wire tags 0x01, 0x02, 0x03, 0x04 followed by the id
and trailing fields. -/
theorem mutation_tags_0x01_to_0x04 :
    canonical_mutations
      [.createNode 1 "T", .setField 1 "k" (.int 5), .deleteField 1 "k", .deleteNode 1]
      = [0x01] ++ u64be 1 ++ u64be 1 ++ utf8 "T"
        ++ [0x02] ++ u64be 1 ++ u64be 1 ++ utf8 "k" ++ [0x01] ++ i64be 5
        ++ [0x03] ++ u64be 1 ++ u64be 1 ++ utf8 "k"
        ++ [0x04] ++ u64be 1 := by
  simp [canonical_mutations, Memory.mutation_bytes, Memory.write_value_canonical, utf8]
  decide

/-! ## Claim C7: commit fails on empty pending buffer and failing commits
change nothing -/

/-- C7.  `commit` fails with `InvalidInput("no pending mutations")` whenever
the pending buffer is empty, and every failing `commit` returns the engine
exactly as it was: head state, commit list, checkpoint list, pending buffer,
genesis snapshot and hash, and `next_node_id` are all unchanged. -/
theorem commit_empty_pending_error_and_atomic (self : Memory) (message : Option String) :
    (self.pending_mutations = [] →
      Memory.commit self message = (.error (.invalidInput "no pending mutations"), self)) ∧
    (∀ e m', Memory.commit self message = (.error e, m') → m' = self) := by
  constructor
  · intro hp
    simp [Memory.commit, hp]
  · intro e m' h
    by_cases hp : self.pending_mutations.isEmpty
    · simp [Memory.commit, hp] at h
      exact h.2.symm
    · simp only [Memory.commit, hp, if_false, Bool.false_eq_true] at h
      split at h
      · exact (congrArg Prod.snd h).symm
      · split at h
        · exact (congrArg Prod.snd h).symm
        · split at h
          · exact (congrArg Prod.snd h).symm
          · split at h
            · split at h
              · rename_i heq
                rw [List.getLast?_concat] at heq
                cases heq
              · exact absurd (congrArg Prod.fst h) (by simp)
            · exact absurd (congrArg Prod.fst h) (by simp)

/-- C7 witness: on a fresh engine the pending buffer is empty, the commit
fails with the input error and the engine is unchanged. -/
theorem commit_empty_pending_witness :
    Memory.commit Memory.new none = (.error (.invalidInput "no pending mutations"), Memory.new) :=
  (commit_empty_pending_error_and_atomic Memory.new none).1 rfl

/-! ## Claim C9: format-version acceptance -/

/-- C9 counterexample: a root with `format_version = 0` (and the correct
magic) fails with `MissingFormatVersion`, not with
`UnsupportedFormatVersion(0)` as the claim states. -/
theorem load_header_version_zero_not_unsupported :
    load_header (some (some "MYOSOTIS")) (some (some 0)) = .error .missingFormatVersion ∧
    load_header (some (some "MYOSOTIS")) (some (some 0)) ≠ .error (.unsupportedFormatVersion 0) := by
  constructor
  · rfl
  · intro h
    rw [show load_header (some (some "MYOSOTIS")) (some (some 0))
        = .error .missingFormatVersion from rfl] at h
    cases h

/-- C9 amended.  With a `format_version` field present carrying integer
`v64`, load fails with `MissingFormatVersion` when the `u32`-truncated
version is zero, and with `UnsupportedFormatVersion` of the truncated
version when it exceeds the supported version 1. -/
theorem load_header_version_check (mf : Option (Option String)) (v64 : Nat) :
    (v64 % 2 ^ 32 = 0 →
      load_header mf (some (some v64)) = .error .missingFormatVersion) ∧
    (v64 % 2 ^ 32 > FORMAT_VERSION →
      load_header mf (some (some v64)) = .error (.unsupportedFormatVersion (v64 % 2 ^ 32))) := by
  constructor
  · intro h0
    have h0' : v64 % 4294967296 = 0 := by omega
    simp [load_header, h0']
  · intro h1
    have h1' : FORMAT_VERSION < v64 % 4294967296 := by
      simpa [FORMAT_VERSION] using h1
    have hne : ¬ v64 % 4294967296 = 0 := by
      simp [FORMAT_VERSION] at h1'
      omega
    simp [load_header, hne, h1']

/-- C9 witness: version 2 is rejected as `UnsupportedFormatVersion(2)`. -/
theorem load_header_version_check_witness :
    load_header (some (some "MYOSOTIS")) (some (some 2))
      = .error (.unsupportedFormatVersion 2) :=
  (load_header_version_check (some (some "MYOSOTIS")) 2).2 (by decide)

/-! ## Claim C2: commit replays from the empty state, not the genesis anchor

A compacted store keeps its nodes in the genesis snapshot.  `Memory::commit`
re-validates with `Self::replay(&self.commits)`, which starts from the
*empty* state and never consults `genesis_state`; a pending mutation touching
a genesis-resident node therefore fails validation and the commit is
rejected, where the spec says it succeeds. -/

/-- The single live node of the compacted example store. -/
def genNode : Node := ⟨1, "Agent", [], false⟩

/-- The genesis snapshot of the compacted example store. -/
def genState : State := [(1, genNode)]

/-- A compacted store as `load` materialises it: one node in the genesis
snapshot, no commits, head rebuilt from the snapshot, empty pending buffer. -/
def mLoaded : Memory :=
  ⟨some genState, some (Memory.compute_state_hash genState), [], [], 2, genState, []⟩

/-- `mLoaded` after staging `set(1, "k", Int(0))` (which succeeds: node 1 is
live in the head). -/
def mStaged : Memory :=
  ⟨some genState, some (Memory.compute_state_hash genState), [], [], 2,
    [(1, ⟨1, "Agent", [("k", .int 0)], false⟩)], [.setField 1 "k" (.int 0)]⟩

/-- C2 evidence.  On the compacted store, staging `set(1, "k", Int(0))`
succeeds, but the commit fails with `Invariant("set on missing node 1")`
(and leaves the engine unchanged): the re-validation replay starts from the
empty state, where node 1 does not exist — while the very same pending
mutation validates fine against the genesis snapshot, the anchor the spec
prescribes. -/
theorem commit_on_compacted_store_fails :
    Memory.set mLoaded 1 "k" (.int 0) = (.ok (), mStaged) ∧
    Memory.commit mStaged none
      = (.error (.invariant ("set on missing node " ++ toString 1)), mStaged) ∧
    commitCheckMutations genState mStaged.pending_mutations
      = .ok [(1, ⟨1, "Agent", [("k", .int 0)], false⟩)] := by
  refine ⟨rfl, rfl, ?_⟩
  simp [commitCheckMutations, commitCheckMutation, check_value, genState, genNode, mStaged,
    State.get, State.containsKey, State.modify, Fields.insert]

/-! ## Claim C4: encoder determinism versus structural equality

Rust's derived `PartialEq` compares `f64` by IEEE-754 equality, under which
`+0.0 == -0.0` although their bit patterns differ; the canonical encoder
emits the raw bit pattern.  `valueBeqBits` below is structural equality with
floats compared by raw bits instead; under it (and for canonically
represented maps) the encoder is deterministic. -/

mutual

/-- Structural equality on `Value` with floats compared by raw bit pattern
(all other cases as Rust's derived `PartialEq`). -/
def valueBeqBits (a b : Value) : Bool :=
  match a, b with
  | .int x, .int y => x == y
  | .float x, .float y => x == y
  | .bool x, .bool y => x == y
  | .str x, .str y => x == y
  | .ref x, .ref y => x == y
  | .list xs, .list ys => valueListBeqBits xs ys
  | .map xs, .map ys => (xs.length == ys.length) && valueMapSubBeqBits xs ys
  | _, _ => false
  termination_by sizeOf a + sizeOf b
  decreasing_by
  all_goals (simp; try omega)

/-- Pointwise `valueBeqBits` on lists. -/
def valueListBeqBits (xs ys : List Value) : Bool :=
  match xs, ys with
  | [], [] => true
  | x :: xr, y :: yr => valueBeqBits x y && valueListBeqBits xr yr
  | _, _ => false
  termination_by sizeOf xs + sizeOf ys
  decreasing_by
  all_goals (simp; try omega)

/-- Every entry of `xs` looks up in `ys` with a `valueBeqBits`-equal value. -/
def valueMapSubBeqBits (xs ys : List (String × Value)) : Bool :=
  match xs with
  | [] => true
  | (k, v) :: rest =>
    (match _h : lookupV ys k with
     | some w => valueBeqBits v w
     | none => false) && valueMapSubBeqBits rest ys
  termination_by sizeOf xs + sizeOf ys
  decreasing_by
  · have := sizeOf_lookupV _h; simp; omega
  · simp; try omega

end

mutual

/-- Canonical representation: every map inside the value has its entries
strictly sorted by key (hence unique keys) — the invariant under which the
association lists of this model stand for Rust `HashMap`s. -/
def valueWF (v : Value) : Bool :=
  match v with
  | .list items => valueListWF items
  | .map entries =>
    decide ((entries.map Prod.fst).Chain' (· < ·)) && valueEntriesWF entries
  | _ => true
  termination_by sizeOf v
  decreasing_by
  all_goals (simp; try omega)

/-- `valueWF` on every element. -/
def valueListWF (items : List Value) : Bool :=
  match items with
  | [] => true
  | v :: rest => valueWF v && valueListWF rest
  termination_by sizeOf items
  decreasing_by
  all_goals (simp; try omega)

/-- `valueWF` on every entry value. -/
def valueEntriesWF (entries : List (String × Value)) : Bool :=
  match entries with
  | [] => true
  | (k, v) :: rest => valueWF v && valueEntriesWF rest
  termination_by sizeOf entries
  decreasing_by
  all_goals (simp; try omega)

end

theorem valueMapSubBeqBits_cons (k : String) (v : Value) (rest ys : List (String × Value)) :
    valueMapSubBeqBits ((k, v) :: rest) ys
      = ((match lookupV ys k with
          | some w => valueBeqBits v w
          | none => false) && valueMapSubBeqBits rest ys) := by
  rw [valueMapSubBeqBits]
  cases hl : lookupV ys k <;> rfl

theorem valueMapSubBeqBits_iff (xs ys : List (String × Value)) :
    valueMapSubBeqBits xs ys = true
      ↔ ∀ p ∈ xs, ∃ w, lookupV ys p.1 = some w ∧ valueBeqBits p.2 w = true := by
  induction xs with
  | nil => simp [valueMapSubBeqBits]
  | cons e rest ih =>
    obtain ⟨k, v⟩ := e
    rw [valueMapSubBeqBits_cons]
    cases hl : lookupV ys k with
    | none =>
      simp only [Bool.false_and, Bool.false_eq_true, false_iff]
      intro hall
      obtain ⟨w, hw, _⟩ := hall (k, v) (List.mem_cons_self _ _)
      rw [hl] at hw
      cases hw
    | some w =>
      simp only [Bool.and_eq_true, ih]
      constructor
      · rintro ⟨hb, hrest⟩ p hp
        rcases List.mem_cons.mp hp with hh | ht
        · subst hh
          exact ⟨w, hl, hb⟩
        · exact hrest p ht
      · intro hall
        refine ⟨?_, fun p hp => hall p (List.mem_cons_of_mem _ hp)⟩
        obtain ⟨w', hw', hb'⟩ := hall (k, v) (List.mem_cons_self _ _)
        rw [hl] at hw'
        cases hw'
        exact hb'

theorem lookupV_mem_keys {ys : List (String × Value)} {k : String} {w : Value}
    (h : lookupV ys k = some w) : k ∈ ys.map Prod.fst := by
  unfold lookupV at h
  obtain ⟨q, hq, hqw⟩ := Option.map_eq_some'.mp h
  have hqm := List.mem_of_find?_eq_some hq
  have hqp := List.find?_some hq
  simp at hqp
  exact List.mem_map.mpr ⟨q, hqm, hqp⟩

theorem keys_eq_of_sub (xs ys : List (String × Value))
    (hx : (xs.map Prod.fst).Chain' (· < ·)) (hy : (ys.map Prod.fst).Chain' (· < ·))
    (hlen : xs.length = ys.length)
    (hsub : ∀ p ∈ xs, ∃ w, lookupV ys p.1 = some w) :
    xs.map Prod.fst = ys.map Prod.fst := by
  have px := List.chain'_iff_pairwise.mp hx
  have py := List.chain'_iff_pairwise.mp hy
  have ndx : (xs.map Prod.fst).Nodup := px.imp fun h => ne_of_lt h
  have hsubset : xs.map Prod.fst ⊆ ys.map Prod.fst := by
    intro k hk
    obtain ⟨p, hp, hpk⟩ := List.mem_map.mp hk
    obtain ⟨w, hw⟩ := hsub p hp
    rw [hpk] at hw
    exact lookupV_mem_keys hw
  have hsp := List.subperm_of_subset ndx hsubset
  have hperm := hsp.perm_of_length_le (by simp [hlen])
  haveI : IsAntisymm String (· < ·) := ⟨fun a b h1 h2 => absurd h2 (lt_asymm h1)⟩
  exact List.eq_of_perm_of_sorted hperm px py

theorem sizeOf_snd_lt_of_mem {p : String × Value} {xs : List (String × Value)}
    (h : p ∈ xs) : sizeOf p.2 < sizeOf xs := by
  have := List.sizeOf_lt_of_mem h
  obtain ⟨k, v⟩ := p
  simp at this ⊢
  omega

theorem map_entries_eq : ∀ (xs ys : List (String × Value)),
    (∀ p q, p ∈ xs → q ∈ ys → valueWF p.2 = true → valueWF q.2 = true →
      valueBeqBits p.2 q.2 = true → p.2 = q.2) →
    (xs.map Prod.fst).Chain' (· < ·) → (ys.map Prod.fst).Chain' (· < ·) →
    valueEntriesWF xs = true → valueEntriesWF ys = true →
    xs.map Prod.fst = ys.map Prod.fst →
    (∀ p ∈ xs, ∃ w, lookupV ys p.1 = some w ∧ valueBeqBits p.2 w = true) →
    xs = ys := by
  intro xs
  induction xs with
  | nil =>
    intro ys _ _ _ _ _ hkeys _
    cases ys with
    | nil => rfl
    | cons e yr => simp at hkeys
  | cons e rest ihx =>
    intro ys ih hcx hcy hwx hwy hkeys hsub
    obtain ⟨k, v⟩ := e
    cases ys with
    | nil => simp at hkeys
    | cons e' yr =>
      obtain ⟨k', w⟩ := e'
      simp only [List.map_cons, List.cons.injEq] at hkeys
      obtain ⟨hk, hkr⟩ := hkeys
      subst hk
      obtain ⟨w0, hw0, hbeq0⟩ := hsub (k, v) (List.mem_cons_self _ _)
      have hlk : lookupV ((k, w) :: yr) k = some w := by
        simp [lookupV, List.find?]
      rw [hlk] at hw0
      injection hw0 with hww
      subst hww
      simp only [valueEntriesWF, Bool.and_eq_true] at hwx hwy
      have hv : v = w :=
        ih (k, v) (k, w) (List.mem_cons_self _ _) (List.mem_cons_self _ _)
          hwx.1 hwy.1 hbeq0
      subst hv
      have hkx : ∀ x ∈ rest.map Prod.fst, k < x := by
        have := List.chain'_iff_pairwise.mp hcx
        exact (List.pairwise_cons.mp this).1
      have htail : rest = yr := by
        refine ihx yr ?_ hcx.tail hcy.tail hwx.2 hwy.2 hkr ?_
        · intro p q hp hq
          exact ih p q (List.mem_cons_of_mem _ hp) (List.mem_cons_of_mem _ hq)
        · intro p hp
          obtain ⟨w', hw', hb'⟩ := hsub p (List.mem_cons_of_mem _ hp)
          have hpk : ¬ (k = p.1) := by
            have hlt := hkx p.1 (List.mem_map.mpr ⟨p, hp, rfl⟩)
            exact fun he => absurd (he ▸ hlt) (lt_irrefl _)
          rw [show lookupV ((k, v) :: yr) p.1 = lookupV yr p.1 by
            simp [lookupV, List.find?_cons_of_neg, hpk]] at hw'
          exact ⟨w', hw', hb'⟩
      rw [htail]

theorem value_list_eq : ∀ (xs ys : List Value),
    (∀ x y, x ∈ xs → y ∈ ys → valueWF x = true → valueWF y = true →
      valueBeqBits x y = true → x = y) →
    valueListWF xs = true → valueListWF ys = true →
    valueListBeqBits xs ys = true → xs = ys := by
  intro xs
  induction xs with
  | nil =>
    intro ys _ _ _ hbeq
    cases ys with
    | nil => rfl
    | cons y yr => simp [valueListBeqBits] at hbeq
  | cons x xr ihx =>
    intro ys ih hwx hwy hbeq
    cases ys with
    | nil => simp [valueListBeqBits] at hbeq
    | cons y yr =>
      simp only [valueListBeqBits, Bool.and_eq_true] at hbeq
      simp only [valueListWF, Bool.and_eq_true] at hwx hwy
      have hx : x = y :=
        ih x y (List.mem_cons_self _ _) (List.mem_cons_self _ _) hwx.1 hwy.1 hbeq.1
      have hr : xr = yr := by
        refine ihx yr ?_ hwx.2 hwy.2 hbeq.2
        intro a b ha hb
        exact ih a b (List.mem_cons_of_mem _ ha) (List.mem_cons_of_mem _ hb)
      rw [hx, hr]

theorem valueBeqBits_eq_aux : ∀ n : Nat, ∀ a b : Value, sizeOf a + sizeOf b ≤ n →
    valueWF a = true → valueWF b = true → valueBeqBits a b = true → a = b := by
  intro n
  induction n using Nat.strong_induction_on with
  | _ n ihn =>
    intro a b hab hwa hwb hbeq
    cases a <;> cases b <;> simp [valueBeqBits] at hbeq
    case int.int x y => rw [hbeq]
    case float.float x y => rw [hbeq]
    case bool.bool x y => rw [hbeq]
    case str.str x y => rw [hbeq]
    case ref.ref x y => rw [hbeq]
    case list.list xs ys =>
      simp only [valueWF] at hwa hwb
      have h := value_list_eq xs ys ?_ hwa hwb hbeq
      · rw [h]
      · intro x y hx hy
        have h1 : sizeOf x < sizeOf (Value.list xs) := by
          have := List.sizeOf_lt_of_mem hx
          simp
          omega
        have h2 : sizeOf y < sizeOf (Value.list ys) := by
          have := List.sizeOf_lt_of_mem hy
          simp
          omega
        exact ihn (sizeOf x + sizeOf y) (by omega) x y le_rfl
    case map.map xs ys =>
      obtain ⟨hlen, hsub⟩ := hbeq
      simp only [valueWF, Bool.and_eq_true, decide_eq_true_eq] at hwa hwb
      have hsub' := (valueMapSubBeqBits_iff xs ys).mp hsub
      have hih : ∀ p q, p ∈ xs → q ∈ ys → valueWF p.2 = true → valueWF q.2 = true →
          valueBeqBits p.2 q.2 = true → p.2 = q.2 := by
        intro p q hp hq
        have h1 : sizeOf p.2 < sizeOf (Value.map xs) := by
          have := sizeOf_snd_lt_of_mem hp
          simp
          omega
        have h2 : sizeOf q.2 < sizeOf (Value.map ys) := by
          have := sizeOf_snd_lt_of_mem hq
          simp
          omega
        exact ihn (sizeOf p.2 + sizeOf q.2) (by omega) p.2 q.2 le_rfl
      have hkeys := keys_eq_of_sub xs ys hwa.1 hwb.1 hlen
        (fun p hp => (hsub' p hp).elim fun w hw => ⟨w, hw.1⟩)
      have h := map_entries_eq xs ys hih hwa.1 hwb.1 hwa.2 hwb.2 hkeys hsub'
      rw [h]

/-- Bitwise structural equality coincides with identity on canonically
represented values. -/
theorem valueBeqBits_eq (a b : Value) (hwa : valueWF a = true) (hwb : valueWF b = true)
    (hbeq : valueBeqBits a b = true) : a = b :=
  valueBeqBits_eq_aux (sizeOf a + sizeOf b) a b le_rfl hwa hwb hbeq

/-- C4 counterexample: `+0.0` and `-0.0` are structurally equal under the
`Value` equality of the source (Rust's derived `PartialEq`, with IEEE-754
comparison on `f64`), yet the canonical encoder emits their distinct raw bit
patterns, so the outputs are not byte-identical. -/
theorem encoder_distinguishes_equal_floats :
    valueBeq (.float 0) (.float (2 ^ 63)) = true ∧
    Memory.write_value_canonical [] (.float 0)
      ≠ Memory.write_value_canonical [] (.float (2 ^ 63)) := by
  constructor
  · rw [valueBeq]
    decide
  · rw [Memory.write_value_canonical, Memory.write_value_canonical]
    decide

/-- C4 amended.  For canonically represented values (maps sorted by key, as
every value a Rust `HashMap` yields), structural equality with floats
compared by raw bit pattern — node-reference equality still integer equality
— implies byte-identical canonical encoder output. -/
theorem encoder_deterministic_on_bitwise_equality (v1 v2 : Value)
    (h1 : valueWF v1 = true) (h2 : valueWF v2 = true)
    (heq : valueBeqBits v1 v2 = true) :
    Memory.write_value_canonical [] v1 = Memory.write_value_canonical [] v2 := by
  rw [valueBeqBits_eq v1 v2 h1 h2 heq]

/-- C4 witness: a nested value with a map, a list, a float and a reference,
bitwise-equal to itself, encodes identically. -/
theorem encoder_deterministic_witness :
    valueWF (Value.map [("a", .float 5), ("b", .list [.int 1, .ref 2])]) = true ∧
    Memory.write_value_canonical [] (Value.map [("a", .float 5), ("b", .list [.int 1, .ref 2])])
      = Memory.write_value_canonical [] (Value.map [("a", .float 5), ("b", .list [.int 1, .ref 2])]) := by
  have hwf : valueWF (Value.map [("a", .float 5), ("b", .list [.int 1, .ref 2])]) = true := by
    rw [valueWF]
    simp [valueEntriesWF, valueWF, valueListWF]
    decide
  have hbeq : valueBeqBits (Value.map [("a", .float 5), ("b", .list [.int 1, .ref 2])])
      (Value.map [("a", .float 5), ("b", .list [.int 1, .ref 2])]) = true := by
    rw [valueBeqBits]
    rw [valueMapSubBeqBits_cons, valueMapSubBeqBits_cons]
    simp [lookupV, List.find?, valueBeqBits, valueListBeqBits, valueMapSubBeqBits]
  exact ⟨hwf, encoder_deterministic_on_bitwise_equality _ _ hwf hwf hbeq⟩

/-! ## Claim C5: tamper detection on a two-commit store

The store below is exactly what saving the spec scenario produces — two
commits whose hashes are the real `compute_commit_hash` values — except that
the first byte of `commits[0].hash` has been flipped (xor 1).  The chain
check `commit.parent_hash == Some(prev.hash)` runs in *both* load modes, so
the flip is caught even when hash recomputation is off: the second commit's
stored parent hash is the untampered value. -/

/-- The first commit's mutations: `create("Agent")`. -/
def c5m1 : List Mutation := [.createNode 1 "Agent"]

/-- The first commit's (untampered) hash. -/
def c5h1 : Bytes := Memory.compute_commit_hash none (some "c1") c5m1

/-- The second commit's mutations: `set(1, "goal", Str("Explore"))`. -/
def c5m2 : List Mutation := [.setField 1 "goal" (.str "Explore")]

/-- The second commit, correctly chained to the untampered first hash. -/
def c5c2 : Commit := ⟨2, some 1, some c5h1, Memory.compute_commit_hash (some c5h1) (some "c2") c5m2, some "c2", c5m2⟩

/-- Flip the lowest bit of the first byte. -/
def flipFirstByte (h : Bytes) : Bytes :=
  match h with
  | [] => []
  | b :: r => (b ^^^ 1) :: r

/-- The first commit with its stored hash tampered. -/
def c5c1Bad : Commit := ⟨1, none, none, flipFirstByte c5h1, some "c1", c5m1⟩

/-- The tampered two-commit store as `load` parses it (head state and
pending buffer are not serialised and come back empty). -/
def c5mem : Memory := ⟨none, none, [c5c1Bad, c5c2], [], 2, [], []⟩

set_option maxRecDepth 100000 in
/-- C5 counterexample: on the tampered two-commit store the permissive
("Unsafe") load does not succeed — the unconditional parent-hash chain check
fails — contradicting the claim that Unsafe load succeeds. -/
theorem tampered_two_commit_lenient_load_not_ok :
    (validate_and_build_head c5mem LoadMode.lenient).isOk = false := rfl

set_option maxRecDepth 100000 in
/-- C5 amended.  On the saved two-commit store with a byte of
`commits[0].hash` flipped, Strict load fails with `CorruptCommitHash` (the
recomputed first hash disagrees with the stored one), and Unsafe load fails
with `CorruptParentHash` (the second commit's stored parent hash is the
untampered first hash, and chain linkage is checked in every mode). -/
theorem tampered_two_commit_load_errors :
    validate_and_build_head c5mem LoadMode.strict = .error .corruptCommitHash ∧
    validate_and_build_head c5mem LoadMode.lenient = .error .corruptParentHash :=
  ⟨rfl, rfl⟩

/-! ## Replay algebra

Infrastructure for claims C3 and C8: the fold structure of replay, and the
simulation between the validation loop inside `commit` (which types created
nodes with the empty string) and real replay. -/

/-- Staging a list of mutations onto the head, one `apply_mutation` at a
time (how the head evolves between commits). -/
def applyMutList (s : State) : List Mutation → Except Err State
  | [] => .ok s
  | m :: rest =>
    match Memory.apply_mutation s m with
    | .error e => .error e
    | .ok s' => applyMutList s' rest

theorem applyMutList_append (l1 l2 : List Mutation) :
    ∀ s, applyMutList s (l1 ++ l2)
      = match applyMutList s l1 with
        | .error e => .error e
        | .ok s' => applyMutList s' l2 := by
  induction l1 with
  | nil => intro s; simp [applyMutList]
  | cons m rest ih =>
    intro s
    simp only [List.cons_append, applyMutList]
    cases Memory.apply_mutation s m with
    | error e => rfl
    | ok s' => exact ih s'

theorem replay_from_append (l1 l2 : List Commit) :
    ∀ s, Memory.replay_from s (l1 ++ l2)
      = match Memory.replay_from s l1 with
        | .error e => .error e
        | .ok s' => Memory.replay_from s' l2 := by
  induction l1 with
  | nil => intro s; simp [Memory.replay_from]
  | cons c rest ih =>
    intro s
    simp only [List.cons_append, Memory.replay_from]
    cases replayMutations s c.mutations with
    | error e => rfl
    | ok s' => exact ih s'

/-- Strip the type tag of a node (the validation loop inside `commit` types
created nodes with `String::new()`). -/
def stripTy (n : Node) : Node := { n with ty := "" }

/-- Strip every type tag in a state. -/
def eraseTy (s : State) : State := s.map fun p => (p.1, stripTy p.2)

theorem containsKey_eraseTy (s : State) (id : NodeId) :
    (eraseTy s).containsKey id = s.containsKey id := by
  induction s with
  | nil => rfl
  | cons p rest ih =>
    by_cases hp : p.1 = id <;>
      simp [eraseTy, State.containsKey, List.find?, hp] at ih ⊢ <;>
      simpa [eraseTy, State.containsKey] using ih

theorem get_eraseTy (s : State) (id : NodeId) :
    (eraseTy s).get id = (s.get id).map stripTy := by
  induction s with
  | nil => rfl
  | cons p rest ih =>
    by_cases hp : p.1 = id <;>
      simp [eraseTy, State.get, List.find?, hp] at ih ⊢ <;>
      simpa [eraseTy, State.get] using ih

theorem eraseTy_insert (s : State) (id : NodeId) (n : Node) :
    eraseTy (s.insert id n) = (eraseTy s).insert id (stripTy n) := by
  induction s with
  | nil => rfl
  | cons p rest ih =>
    obtain ⟨k, v⟩ := p
    by_cases h1 : id < k
    · simp [State.insert, eraseTy, h1]
    · by_cases h2 : id = k <;> simp [State.insert, eraseTy, h1, h2] <;>
        simpa [eraseTy] using ih

theorem eraseTy_modify (s : State) (id : NodeId) (f : Node → Node)
    (hf : ∀ n, stripTy (f n) = f (stripTy n)) :
    eraseTy (s.modify id f) = (eraseTy s).modify id f := by
  induction s with
  | nil => rfl
  | cons p rest ih =>
    obtain ⟨k, v⟩ := p
    by_cases hp : k = id <;> simp [State.modify, eraseTy, hp, hf] at ih ⊢ <;>
      simpa [eraseTy, State.modify] using ih

theorem checkValues_congr (items : List Value) (s t : State)
    (ih : ∀ v ∈ items, check_value v s = check_value v t) :
    checkValues items s = checkValues items t := by
  induction items with
  | nil => simp [checkValues]
  | cons v rest ihr =>
    rw [checkValues, checkValues, ih v (List.mem_cons_self _ _),
      ihr fun w hw => ih w (List.mem_cons_of_mem _ hw)]

theorem checkMapValues_congr (entries : List (String × Value)) (s t : State)
    (ih : ∀ e ∈ entries, check_value e.2 s = check_value e.2 t) :
    checkMapValues entries s = checkMapValues entries t := by
  induction entries with
  | nil => simp [checkMapValues]
  | cons e rest ihr =>
    rw [checkMapValues, checkMapValues, ih e (List.mem_cons_self _ _),
      ihr fun w hw => ih w (List.mem_cons_of_mem _ hw)]

theorem check_value_congr_aux : ∀ n : Nat, ∀ v : Value, sizeOf v ≤ n →
    ∀ s t : State, (∀ rid, s.containsKey rid = t.containsKey rid) →
    check_value v s = check_value v t := by
  intro n
  induction n using Nat.strong_induction_on with
  | _ n ihn =>
    intro v hv s t hck
    cases v with
    | int x => simp [check_value]
    | float x => simp [check_value]
    | bool x => simp [check_value]
    | str x => simp [check_value]
    | ref rid => rw [check_value, check_value, hck rid]
    | list items =>
      rw [check_value, check_value]
      refine checkValues_congr items s t fun w hw => ?_
      have h1 : sizeOf w < sizeOf (Value.list items) := by
        have := List.sizeOf_lt_of_mem hw
        simp
        omega
      exact ihn (sizeOf w) (by omega) w le_rfl s t hck
    | map entries =>
      rw [check_value, check_value]
      refine checkMapValues_congr entries s t fun e he => ?_
      have h1 : sizeOf e.2 < sizeOf (Value.map entries) := by
        have := sizeOf_snd_lt_of_mem he
        simp
        omega
      exact ihn (sizeOf e.2) (by omega) e.2 le_rfl s t hck

/-- `check_value` only inspects which node ids are present. -/
theorem check_value_congr (v : Value) (s t : State)
    (hck : ∀ rid, s.containsKey rid = t.containsKey rid) :
    check_value v s = check_value v t :=
  check_value_congr_aux (sizeOf v) v le_rfl s t hck

/-- One step of the simulation: if the validation loop of `commit` accepts a
mutation on `s` and `t` agrees with `s` up to type tags, real replay accepts
it on `t`, and the results again agree up to type tags. -/
theorem commitCheck_to_replay (mu : Mutation) (s t : State)
    (he : eraseTy s = eraseTy t) (s' : State)
    (hc : commitCheckMutation s mu = .ok s') :
    ∃ t', replayMutation t mu = .ok t' ∧ eraseTy s' = eraseTy t' := by
  have hck : ∀ rid, s.containsKey rid = t.containsKey rid := fun rid => by
    rw [← containsKey_eraseTy s, ← containsKey_eraseTy t, he]
  have hgt : ∀ id, (s.get id).map stripTy = (t.get id).map stripTy := fun id => by
    rw [← get_eraseTy, ← get_eraseTy, he]
  cases mu with
  | createNode id ty =>
    rw [commitCheckMutation] at hc
    by_cases hcont : s.containsKey id = true
    · simp [hcont] at hc
    · rw [if_neg hcont] at hc
      injection hc with hc
      refine ⟨t.insert id ⟨id, ty, [], false⟩, ?_, ?_⟩
      · rw [replayMutation, if_neg]
        rw [← hck id]
        exact hcont
      · rw [← hc, eraseTy_insert, eraseTy_insert, he]
        rfl
  | setField id key value =>
    rw [commitCheckMutation] at hc
    cases hs : s.get id with
    | none => rw [hs] at hc; cases hc
    | some ex =>
      rw [hs] at hc
      dsimp only at hc
      by_cases hdel : ex.deleted = true
      · simp [hdel] at hc
      · rw [if_neg hdel] at hc
        cases hcv : check_value value s with
        | error e => rw [hcv] at hc; cases hc
        | ok _ =>
          rw [hcv] at hc
          injection hc with hc
          have hgid := hgt id
          rw [hs] at hgid
          cases ht : t.get id with
          | none => rw [ht] at hgid; cases hgid
          | some ext =>
            rw [ht] at hgid
            injection hgid with hstrip
            have hdelt : ext.deleted = ex.deleted := by
              have := congrArg Node.deleted hstrip
              simpa [stripTy] using this.symm
            refine ⟨t.modify id fun n => { n with fields := n.fields.insert key value }, ?_, ?_⟩
            · rw [replayMutation, ht]
              dsimp only
              rw [if_neg (hdelt ▸ hdel)]
              rw [← check_value_congr value s t hck, hcv]
            · rw [← hc,
                eraseTy_modify s id (fun n => { n with fields := n.fields.insert key value }) (fun n => rfl),
                eraseTy_modify t id (fun n => { n with fields := n.fields.insert key value }) (fun n => rfl),
                he]
  | deleteField id key =>
    rw [commitCheckMutation] at hc
    cases hs : s.get id with
    | none => rw [hs] at hc; cases hc
    | some ex =>
      rw [hs] at hc
      dsimp only at hc
      by_cases hdel : ex.deleted = true
      · simp [hdel] at hc
      · rw [if_neg hdel] at hc
        by_cases hfn : (ex.fields.get key).isNone = true
        · simp [hfn] at hc
        · rw [if_neg hfn] at hc
          injection hc with hc
          have hgid := hgt id
          rw [hs] at hgid
          cases ht : t.get id with
          | none => rw [ht] at hgid; cases hgid
          | some ext =>
            rw [ht] at hgid
            injection hgid with hstrip
            have hdelt : ext.deleted = ex.deleted := by
              have := congrArg Node.deleted hstrip
              simpa [stripTy] using this.symm
            have hfieldst : ext.fields = ex.fields := by
              have := congrArg Node.fields hstrip
              simpa [stripTy] using this.symm
            refine ⟨t.modify id fun n => { n with fields := n.fields.erase key }, ?_, ?_⟩
            · rw [replayMutation, ht]
              dsimp only
              rw [if_neg (hdelt ▸ hdel), if_neg (hfieldst ▸ hfn)]
            · rw [← hc,
                eraseTy_modify s id (fun n => { n with fields := n.fields.erase key }) (fun n => rfl),
                eraseTy_modify t id (fun n => { n with fields := n.fields.erase key }) (fun n => rfl),
                he]
  | deleteNode id =>
    rw [commitCheckMutation] at hc
    cases hs : s.get id with
    | none => rw [hs] at hc; cases hc
    | some ex =>
      rw [hs] at hc
      dsimp only at hc
      by_cases hdel : ex.deleted = true
      · simp [hdel] at hc
      · rw [if_neg hdel] at hc
        injection hc with hc
        have hgid := hgt id
        rw [hs] at hgid
        cases ht : t.get id with
        | none => rw [ht] at hgid; cases hgid
        | some ext =>
          rw [ht] at hgid
          injection hgid with hstrip
          have hdelt : ext.deleted = ex.deleted := by
            have := congrArg Node.deleted hstrip
            simpa [stripTy] using this.symm
          refine ⟨t.modify id fun n => { n with deleted := true }, ?_, ?_⟩
          · rw [replayMutation, ht]
            dsimp only
            rw [if_neg (hdelt ▸ hdel)]
          · rw [← hc,
              eraseTy_modify s id (fun n => { n with deleted := true }) (fun n => rfl),
              eraseTy_modify t id (fun n => { n with deleted := true }) (fun n => rfl),
              he]

/-- Real replay of a mutation implies stage-time application with the same
result (replay performs the same update after a strictly stronger check). -/
theorem replay_to_apply (mu : Mutation) (t t' : State)
    (h : replayMutation t mu = .ok t') : Memory.apply_mutation t mu = .ok t' := by
  cases mu with
  | createNode id ty =>
    rw [replayMutation] at h
    by_cases hcont : t.containsKey id = true
    · simp [hcont] at h
    · rw [if_neg hcont] at h
      rw [Memory.apply_mutation, if_neg hcont]
      exact h
  | setField id key value =>
    rw [replayMutation] at h
    cases ht : t.get id with
    | none => rw [ht] at h; cases h
    | some ex =>
      rw [ht] at h
      dsimp only at h
      by_cases hdel : ex.deleted = true
      · simp [hdel] at h
      · rw [if_neg hdel] at h
        cases hcv : check_value value t with
        | error e => rw [hcv] at h; cases h
        | ok _ =>
          rw [hcv] at h
          rw [Memory.apply_mutation, ht]
          dsimp only
          rw [if_neg hdel]
          exact h
  | deleteField id key =>
    rw [replayMutation] at h
    rw [Memory.apply_mutation]
    exact h
  | deleteNode id =>
    rw [replayMutation] at h
    rw [Memory.apply_mutation]
    exact h

/-- The simulation, folded: if the validation loop of `commit` accepts the
pending mutations against the replayed base and staging them onto the same
base produced the head, then real replay of those mutations produces exactly
the head. -/
theorem commitCheck_apply_replay : ∀ (muts : List Mutation) (s t : State),
    eraseTy s = eraseTy t →
    ∀ b, commitCheckMutations s muts = .ok b →
    ∀ h, applyMutList t muts = .ok h →
    replayMutations t muts = .ok h := by
  intro muts
  induction muts with
  | nil =>
    intro s t he b hc h ha
    injection ha with ha
    rw [replayMutations, ha]
  | cons mu rest ih =>
    intro s t he b hc h ha
    rw [commitCheckMutations] at hc
    cases hcm : commitCheckMutation s mu with
    | error e => rw [hcm] at hc; cases hc
    | ok s1 =>
      rw [hcm] at hc
      rw [applyMutList] at ha
      cases ham : Memory.apply_mutation t mu with
      | error e => rw [ham] at ha; cases ha
      | ok t1 =>
        rw [ham] at ha
        obtain ⟨t2, hrep, he2⟩ := commitCheck_to_replay mu s t he s1 hcm
        have happ2 := replay_to_apply mu t t2 hrep
        rw [ham] at happ2
        injection happ2 with happ2
        subst happ2
        rw [replayMutations, hrep]
        exact ih s1 t1 he2 b hc h ha

/-! ## Reachable stores and their invariant (claims C3 and C8) -/

theorem State.mem_insert {p : NodeId × Node} {s : State} {id : NodeId} {n : Node}
    (h : p ∈ s.insert id n) : p = (id, n) ∨ p ∈ s := by
  induction s with
  | nil => simpa [State.insert] using h
  | cons q rest ih =>
    obtain ⟨k, v⟩ := q
    unfold State.insert at h
    split at h
    · rcases List.mem_cons.mp h with h | h
      · exact Or.inl h
      · exact Or.inr h
    · split at h
      · rcases List.mem_cons.mp h with h | h
        · exact Or.inl h
        · exact Or.inr (List.mem_cons_of_mem _ h)
      · rcases List.mem_cons.mp h with h | h
        · exact Or.inr (by simp [h])
        · rcases ih h with h | h
          · exact Or.inl h
          · exact Or.inr (List.mem_cons_of_mem _ h)

theorem State.mem_modify {p : NodeId × Node} {s : State} {id : NodeId} {f : Node → Node}
    (h : p ∈ s.modify id f) : ∃ q ∈ s, p.1 = q.1 := by
  unfold State.modify at h
  obtain ⟨q, hq, hpq⟩ := List.mem_map.mp h
  refine ⟨q, hq, ?_⟩
  by_cases hk : q.1 = id
  · simp [hk] at hpq
    simp [← hpq, hk]
  · simp [hk] at hpq
    simp [← hpq]

theorem containsKey_false_of {s : State} {id : NodeId}
    (h : ∀ p ∈ s, p.1 ≠ id) : s.containsKey id = false := by
  unfold State.containsKey
  rw [List.find?_eq_none.mpr]
  · rfl
  · intro p hp
    simpa using h p hp

theorem findIdx?_of_ids : ∀ (l : List Commit) (base : Nat),
    (∀ i (h : i < l.length), (l.get ⟨i, h⟩).id = base + i + 1) →
    ∀ j i, i < l.length → ∀ k, k = base + i + 1 →
    List.findIdx? (fun c => c.id = k) l j = some (j + i) := by
  intro l
  induction l with
  | nil =>
    intro base _ j i hi
    exact absurd hi (by simp)
  | cons c rest ih =>
    intro base hids j i hi k hk
    have hc : c.id = base + 1 := by
      have := hids 0 (by simp)
      simpa using this
    rw [List.findIdx?_cons]
    cases i with
    | zero =>
      rw [if_pos (by simp [hc, hk])]
      simp
    | succ i' =>
      rw [if_neg (by simp [hc, hk]; try omega)]
      have hrest : ∀ i (h : i < rest.length), (rest.get ⟨i, h⟩).id = (base + 1) + i + 1 := by
        intro i h
        have := hids (i + 1) (by simpa using Nat.succ_lt_succ h)
        simp only [List.get_cons_succ] at this
        rw [this]
        omega
      have := ih (base + 1) hrest (j + 1) i' (by simpa using Nat.lt_of_succ_lt_succ hi)
        k (by omega)
      rw [this]
      congr 1
      omega

theorem findIdx?_none_of_ids (l : List Commit) (k : Nat)
    (h : ∀ c ∈ l, c.id ≠ k) : ∀ j, List.findIdx? (fun c => c.id = k) l j = none := by
  induction l with
  | nil => intro j; rfl
  | cons c rest ih =>
    intro j
    rw [List.findIdx?_cons, if_neg (by simpa using h c (List.mem_cons_self _ _))]
    exact ih (fun d hd => h d (List.mem_cons_of_mem _ hd)) (j + 1)

theorem maxByCommitId_mem : ∀ (l : List Checkpoint) (cp : Checkpoint),
    maxByCommitId l = some cp → cp ∈ l := by
  have haux : ∀ (l : List Checkpoint) (acc : Option Checkpoint) (cp : Checkpoint),
      l.foldl (fun acc c => match acc with
        | none => some c
        | some b => if b.commit_id ≤ c.commit_id then some c else some b) acc = some cp →
      cp ∈ l ∨ acc = some cp := by
    intro l
    induction l with
    | nil => intro acc cp h; exact Or.inr h
    | cons c rest ih =>
      intro acc cp h
      rcases ih _ cp h with h1 | h1
      · exact Or.inl (List.mem_cons_of_mem _ h1)
      · cases acc with
        | none =>
          simp at h1
          exact Or.inl (by simp [h1])
        | some b =>
          by_cases hle : b.commit_id ≤ c.commit_id
          · simp [hle] at h1
            exact Or.inl (by simp [h1])
          · simp [hle] at h1
            exact Or.inr (by simp [h1])
  intro l cp h
  rcases haux l none cp h with h1 | h1
  · exact h1
  · cases h1

/-- The engine states reachable from `Memory::new` through the public
mutating operations (each step keeps the returned engine whether the
operation succeeded or failed). -/
inductive Reach : Memory → Prop where
  | new : Reach Memory.new
  | create (m : Memory) (ty : String) : Reach m → Reach (Memory.create m ty).2
  | set (m : Memory) (id : NodeId) (key : String) (value : Value) :
      Reach m → Reach (Memory.set m id key value).2
  | delete_field (m : Memory) (id : NodeId) (key : String) :
      Reach m → Reach (Memory.delete_field m id key).2
  | delete_node (m : Memory) (id : NodeId) : Reach m → Reach (Memory.delete_node m id).2
  | commit (m : Memory) (msg : Option String) : Reach m → Reach (Memory.commit m msg).2

/-- The invariant every engine-reachable store satisfies: no genesis
snapshot, commit ids `1, 2, …` in order, every checkpoint snapshotting the
replay of the commit prefix it names, checkpoints at exactly the commit ids
divisible by the checkpoint interval, the head equal to the replay of the
log with the pending buffer staged on top, and all head node ids below
`next_node_id`. -/
structure Inv (m : Memory) : Prop where
  genesis : m.genesis_state = none
  ids : ∀ i (h : i < m.commits.length), (m.commits.get ⟨i, h⟩).id = i + 1
  cps : ∀ cp ∈ m.checkpoints, ∃ i, ∃ h : i < m.commits.length,
    (m.commits.get ⟨i, h⟩).id = cp.commit_id ∧
    Memory.replay (m.commits.take (i + 1)) = .ok cp.state
  cpIds : m.checkpoints.map Checkpoint.commit_id
    = ((List.range m.commits.length).map (· + 1)).filter
        (fun k => k % CHECKPOINT_INTERVAL = 0)
  headReplay : ∃ s, Memory.replay m.commits = .ok s
    ∧ applyMutList s m.pending_mutations = .ok m.head_state
  keysLt : ∀ p ∈ m.head_state, p.1 < m.next_node_id

theorem inv_new : Inv Memory.new := by
  refine ⟨rfl, ?_, ?_, rfl, ⟨[], rfl, rfl⟩, ?_⟩
  · intro i h
    exact absurd h (by simp [Memory.new])
  · intro cp hcp
    exact absurd hcp (by simp [Memory.new])
  · intro p hp
    exact absurd hp (by simp [Memory.new])

theorem inv_create (m : Memory) (ty : String) (h : Inv m) :
    Inv (Memory.create m ty).2 := by
  obtain ⟨s, hs, happ⟩ := h.headReplay
  refine ⟨h.genesis, h.ids, h.cps, h.cpIds, ?_, ?_⟩
  · refine ⟨s, hs, ?_⟩
    show applyMutList s (m.pending_mutations ++ [.createNode m.next_node_id ty]) = _
    rw [applyMutList_append, happ]
    have hnc : m.head_state.containsKey m.next_node_id = false :=
      containsKey_false_of fun p hp => Nat.ne_of_lt (h.keysLt p hp)
    simp [applyMutList, Memory.apply_mutation, hnc, Memory.create]
  · intro p hp
    rcases State.mem_insert hp with h1 | h1
    · rw [h1]
      show m.next_node_id < m.next_node_id + 1
      exact Nat.lt_succ_self _
    · have := h.keysLt p h1
      show p.1 < m.next_node_id + 1
      exact Nat.lt_succ_of_lt this

theorem inv_set (m : Memory) (id : NodeId) (key : String) (value : Value) (h : Inv m) :
    Inv (Memory.set m id key value).2 := by
  unfold Memory.set
  cases hg : m.head_state.get id with
  | none => exact h
  | some node =>
    dsimp only
    by_cases hdel : node.deleted = true
    · rw [if_pos hdel]
      exact h
    · rw [if_neg hdel]
      cases ha : Memory.apply_mutation m.head_state (.setField id key value) with
      | error e => exact h
      | ok head' =>
        dsimp only
        refine ⟨h.genesis, h.ids, h.cps, h.cpIds, ?_, ?_⟩
        · obtain ⟨s, hs, happ⟩ := h.headReplay
          refine ⟨s, hs, ?_⟩
          rw [applyMutList_append, happ]
          simp [applyMutList, ha]
        · intro p hp
          rw [Memory.apply_mutation, hg] at ha
          dsimp only at ha
          rw [if_neg hdel] at ha
          injection ha with ha
          rw [← ha] at hp
          dsimp only at hp
          obtain ⟨q, hq, hpq⟩ := State.mem_modify hp
          rw [hpq]
          exact h.keysLt q hq

theorem inv_delete_field (m : Memory) (id : NodeId) (key : String) (h : Inv m) :
    Inv (Memory.delete_field m id key).2 := by
  unfold Memory.delete_field
  cases hg : m.head_state.get id with
  | none => exact h
  | some node =>
    dsimp only
    by_cases hdel : node.deleted = true
    · rw [if_pos hdel]
      exact h
    · rw [if_neg hdel]
      by_cases hfn : (node.fields.get key).isNone = true
      · rw [if_pos hfn]
        exact h
      · rw [if_neg hfn]
        cases ha : Memory.apply_mutation m.head_state (.deleteField id key) with
        | error e => exact h
        | ok head' =>
          dsimp only
          refine ⟨h.genesis, h.ids, h.cps, h.cpIds, ?_, ?_⟩
          · obtain ⟨s, hs, happ⟩ := h.headReplay
            refine ⟨s, hs, ?_⟩
            rw [applyMutList_append, happ]
            simp [applyMutList, ha]
          · intro p hp
            rw [Memory.apply_mutation, hg] at ha
            dsimp only at ha
            rw [if_neg hdel, if_neg hfn] at ha
            injection ha with ha
            rw [← ha] at hp
            dsimp only at hp
            obtain ⟨q, hq, hpq⟩ := State.mem_modify hp
            rw [hpq]
            exact h.keysLt q hq

theorem inv_delete_node (m : Memory) (id : NodeId) (h : Inv m) :
    Inv (Memory.delete_node m id).2 := by
  unfold Memory.delete_node
  cases hg : m.head_state.get id with
  | none => exact h
  | some node =>
    dsimp only
    by_cases hdel : node.deleted = true
    · rw [if_pos hdel]
      exact h
    · rw [if_neg hdel]
      cases ha : Memory.apply_mutation m.head_state (.deleteNode id) with
      | error e => exact h
      | ok head' =>
        dsimp only
        refine ⟨h.genesis, h.ids, h.cps, h.cpIds, ?_, ?_⟩
        · obtain ⟨s, hs, happ⟩ := h.headReplay
          refine ⟨s, hs, ?_⟩
          rw [applyMutList_append, happ]
          simp [applyMutList, ha]
        · intro p hp
          rw [Memory.apply_mutation, hg] at ha
          dsimp only at ha
          rw [if_neg hdel] at ha
          injection ha with ha
          rw [← ha] at hp
          dsimp only at hp
          obtain ⟨q, hq, hpq⟩ := State.mem_modify hp
          rw [hpq]
          exact h.keysLt q hq

theorem commit_id_of_getLast (l : List Commit)
    (hids : ∀ i (h : i < l.length), (l.get ⟨i, h⟩).id = i + 1) :
    ∀ c, l.getLast? = some c → c.id = l.length := by
  intro c hc
  have hne : l ≠ [] := by
    intro h
    rw [h] at hc
    cases hc
  have hlen : 0 < l.length := List.length_pos.mpr hne
  rw [List.getLast?_eq_getElem?] at hc
  have h1 : l.length - 1 < l.length := by omega
  rw [List.getElem?_eq_getElem h1] at hc
  injection hc with hc
  have := hids (l.length - 1) h1
  rw [List.get_eq_getElem] at this
  rw [← hc, this]
  omega

theorem ids_append (l : List Commit) (c : Commit)
    (hids : ∀ i (h : i < l.length), (l.get ⟨i, h⟩).id = i + 1)
    (hc : c.id = l.length + 1) :
    ∀ i (h : i < (l ++ [c]).length), ((l ++ [c]).get ⟨i, h⟩).id = i + 1 := by
  intro i h
  rw [List.get_eq_getElem]
  have hlen : i < l.length + 1 := by simpa using h
  by_cases hi : i < l.length
  · rw [List.getElem_append_left hi]
    have := hids i hi
    rw [List.get_eq_getElem] at this
    exact this
  · have hieq : i = l.length := by omega
    subst hieq
    rw [List.getElem_append_right (le_refl _)]
    simpa using hc

theorem expected_cp_append (n : Nat) :
    ((List.range (n + 1)).map (· + 1)).filter (fun k => k % CHECKPOINT_INTERVAL = 0)
      = (((List.range n).map (· + 1)).filter (fun k => k % CHECKPOINT_INTERVAL = 0))
        ++ (if (n + 1) % CHECKPOINT_INTERVAL = 0 then [n + 1] else []) := by
  rw [List.range_succ, List.map_append, List.filter_append]
  congr 1
  by_cases hn : (n + 1) % CHECKPOINT_INTERVAL = 0 <;> simp [List.filter, hn]

theorem inv_append_commit (m : Memory) (h : Inv m) (c : Commit) (s0 b : State)
    (hid : c.id = m.commits.length + 1)
    (hmut : c.mutations = m.pending_mutations)
    (hrep : Memory.replay m.commits = .ok s0)
    (hchk : commitCheckMutations s0 m.pending_mutations = .ok b) :
    Memory.replay (m.commits ++ [c]) = .ok m.head_state
    ∧ ∀ cps' : List Checkpoint,
      (cps' = m.checkpoints ∧ ¬ (m.commits.length + 1) % CHECKPOINT_INTERVAL = 0)
      ∨ (cps' = m.checkpoints
            ++ [⟨c.id, c.hash, Memory.compute_state_hash m.head_state, m.head_state⟩]
          ∧ (m.commits.length + 1) % CHECKPOINT_INTERVAL = 0) →
      Inv ⟨m.genesis_state, m.genesis_state_hash, m.commits ++ [c], cps',
        m.next_node_id, m.head_state, []⟩ := by
  obtain ⟨s, hs, happ⟩ := h.headReplay
  rw [hs] at hrep
  injection hrep with hrep
  subst hrep
  have hrep' : Memory.replay (m.commits ++ [c]) = .ok m.head_state := by
    rw [Memory.replay, replay_from_append]
    rw [show Memory.replay_from [] m.commits = Memory.replay m.commits from rfl, hs]
    dsimp only
    rw [Memory.replay_from, hmut,
      commitCheck_apply_replay m.pending_mutations s s rfl b hchk m.head_state happ]
    rfl
  refine ⟨hrep', ?_⟩
  intro cps' hcps
  have hlen : (m.commits ++ [c]).length = m.commits.length + 1 := by simp
  have holdcp : ∀ cp ∈ m.checkpoints, ∃ i, ∃ hh : i < (m.commits ++ [c]).length,
      ((m.commits ++ [c]).get ⟨i, hh⟩).id = cp.commit_id
      ∧ Memory.replay ((m.commits ++ [c]).take (i + 1)) = .ok cp.state := by
    intro cp hcp
    obtain ⟨i, hi, hcid, hrepl⟩ := h.cps cp hcp
    refine ⟨i, by rw [hlen]; omega, ?_, ?_⟩
    · rw [List.get_eq_getElem, List.getElem_append_left hi]
      rw [List.get_eq_getElem] at hcid
      exact hcid
    · rw [List.take_append_of_le_length (by omega)]
      exact hrepl
  rcases hcps with ⟨hc', h50⟩ | ⟨hc', h50⟩
  · subst hc'
    refine ⟨h.genesis, ids_append m.commits c h.ids hid, holdcp, ?_,
      ⟨m.head_state, hrep', rfl⟩, h.keysLt⟩
    show m.checkpoints.map Checkpoint.commit_id = _
    rw [hlen, expected_cp_append, if_neg h50, List.append_nil]
    exact h.cpIds
  · subst hc'
    refine ⟨h.genesis, ids_append m.commits c h.ids hid, ?_, ?_,
      ⟨m.head_state, hrep', rfl⟩, h.keysLt⟩
    · intro cp hcp
      rcases List.mem_append.mp hcp with hin | hin
      · exact holdcp cp hin
      · have hcpv : cp = ⟨c.id, c.hash, Memory.compute_state_hash m.head_state, m.head_state⟩ := by
          simpa using hin
        refine ⟨m.commits.length, by rw [hlen]; omega, ?_, ?_⟩
        · rw [List.get_eq_getElem, List.getElem_append_right (le_refl _), hcpv]
          simpa using hid
        · rw [List.take_of_length_le (by rw [hlen]), hcpv]
          exact hrep'
    · show (m.checkpoints ++ [_]).map Checkpoint.commit_id = _
      rw [hlen, expected_cp_append, if_pos h50, List.map_append, h.cpIds]
      simp [hid]

theorem inv_commit (m : Memory) (msg : Option String) (h : Inv m) :
    Inv (Memory.commit m msg).2 := by
  by_cases hp : m.pending_mutations.isEmpty
  · rw [Memory.commit, if_pos hp]
    exact h
  · rw [Memory.commit, if_neg hp]
    cases hl : m.commits.getLast? with
    | none =>
      have hnil : m.commits = [] := by
        cases hcm : m.commits with
        | nil => rfl
        | cons a l =>
          rw [hcm] at hl
          rw [List.getLast?_eq_getElem?] at hl
          rw [List.getElem?_eq_getElem (by simp)] at hl
          cases hl
      dsimp only
      rw [if_neg (by omega : ¬ (1 : Nat) ≠ 1)]
      split
      · rename_i e heq
        cases heq
      cases hrep : Memory.replay m.commits with
      | error e => exact h
      | ok s0 =>
        dsimp only
        cases hchk : commitCheckMutations s0 m.pending_mutations with
        | error e => exact h
        | ok b =>
          dsimp only
          obtain ⟨hrep', hinv⟩ := inv_append_commit m h
            ⟨1, none, m.genesis_state_hash,
              Memory.compute_commit_hash m.genesis_state_hash msg m.pending_mutations,
              msg, m.pending_mutations⟩ s0 b (by rw [hnil]; rfl) rfl hrep hchk
          split
          · rename_i h50
            split
            · rename_i heq
              rw [List.getLast?_concat] at heq
              cases heq
            · rename_i last1 heq
              rw [List.getLast?_concat] at heq
              injection heq with heq
              subst heq
              exact hinv _ (Or.inr ⟨rfl, by simpa using h50⟩)
          · rename_i h50
            exact hinv _ (Or.inl ⟨rfl, by simpa using h50⟩)
    | some last =>
      have hlast := commit_id_of_getLast m.commits h.ids last hl
      dsimp only
      split
      · rename_i e heq
        simp only [Option.map_some'] at heq
        rw [if_neg (by omega : ¬ last.id + 1 ≠ last.id + 1)] at heq
        cases heq
      cases hrep : Memory.replay m.commits with
      | error e => exact h
      | ok s0 =>
        dsimp only
        cases hchk : commitCheckMutations s0 m.pending_mutations with
        | error e => exact h
        | ok b =>
          dsimp only
          obtain ⟨hrep', hinv⟩ := inv_append_commit m h
            ⟨last.id + 1, some last.id, some last.hash,
              Memory.compute_commit_hash (some last.hash) msg m.pending_mutations,
              msg, m.pending_mutations⟩ s0 b (by rw [hlast]) rfl hrep hchk
          split
          · rename_i h50
            split
            · rename_i heq
              rw [List.getLast?_concat] at heq
              cases heq
            · rename_i last1 heq
              rw [List.getLast?_concat] at heq
              injection heq with heq
              subst heq
              exact hinv _ (Or.inr ⟨rfl, by simpa using h50⟩)
          · rename_i h50
            exact hinv _ (Or.inl ⟨rfl, by simpa using h50⟩)

/-- Every engine-reachable store satisfies the invariant. -/
theorem reach_inv : ∀ m : Memory, Reach m → Inv m := by
  intro m h
  induction h with
  | new => exact inv_new
  | create m ty _ ih => exact inv_create m ty ih
  | set m id key value _ ih => exact inv_set m id key value ih
  | delete_field m id key _ ih => exact inv_delete_field m id key ih
  | delete_node m id _ ih => exact inv_delete_node m id ih
  | commit m msg _ ih => exact inv_commit m msg ih

/-! ## Claim C3: historical queries equal full replay -/

/-- C3.  On every engine-reachable store, `state_at_commit` of the id of any
commit present in the list — although it replays from the highest-id
checkpoint at or below the target when one exists — returns exactly the
replay of every commit up to and including that one from the genesis
snapshot (the empty state when absent); and for an id not present in the
list it fails with `CommitNotFound`. -/
theorem state_at_commit_equals_full_replay (m : Memory) (hm : Reach m) :
    (∀ i (hi : i < m.commits.length),
      m.state_at_commit ((m.commits.get ⟨i, hi⟩).id)
        = Memory.replay_from (m.genesis_state.getD []) (m.commits.take (i + 1))) ∧
    (∀ cid, (∀ c ∈ m.commits, c.id ≠ cid) →
      m.state_at_commit cid = .error (.commitNotFound cid)) := by
  have h := reach_inv m hm
  have hids0 : ∀ j (hj : j < m.commits.length), (m.commits.get ⟨j, hj⟩).id = 0 + j + 1 := by
    intro j hj
    rw [h.ids j hj]
    omega
  constructor
  · intro i hi
    have hid : (m.commits.get ⟨i, hi⟩).id = i + 1 := h.ids i hi
    rw [Memory.state_at_commit]
    split
    · rename_i heq
      rw [findIdx?_of_ids m.commits 0 hids0 0 i hi _ (by rw [hid]; omega)] at heq
      cases heq
    · rename_i target_index heq
      rw [findIdx?_of_ids m.commits 0 hids0 0 i hi _ (by rw [hid]; omega)] at heq
      injection heq with heq
      subst heq
      split
      · rename_i cp hcp_eq
        have hcp_mem := maxByCommitId_mem _ cp hcp_eq
        have hcp_in : cp ∈ m.checkpoints := (List.mem_filter.mp hcp_mem).1
        have hcp_le : cp.commit_id ≤ i + 1 := by
          have := (List.mem_filter.mp hcp_mem).2
          rw [hid] at this
          simpa using this
        obtain ⟨j, hj, hjid, hjrep⟩ := h.cps cp hcp_in
        have hjid' : cp.commit_id = j + 1 := by
          rw [← hjid, h.ids j hj]
        split
        · rename_i heq2
          rw [findIdx?_of_ids m.commits 0 hids0 0 j hj _ (by omega)] at heq2
          cases heq2
        · rename_i pos heq2
          rw [findIdx?_of_ids m.commits 0 hids0 0 j hj _ (by omega)] at heq2
          injection heq2 with heq2
          subst heq2
          rw [if_neg (by omega)]
          rw [h.genesis]
          simp only [Nat.zero_add, Option.getD_none]
          have hmin : j + 1 ≤ i + 1 := by omega
          have hsplit : m.commits.take (i + 1)
              = m.commits.take (j + 1) ++ (m.commits.take (i + 1)).drop (j + 1) := by
            conv_lhs => rw [← List.take_append_drop (j + 1) (m.commits.take (i + 1))]
            rw [List.take_take, Nat.min_eq_left hmin]
          conv_rhs => rw [hsplit]
          rw [replay_from_append]
          rw [Memory.replay] at hjrep
          rw [hjrep]
      · rename_i hcp_none
        rw [h.genesis]
        simp only [Nat.zero_add, List.drop_zero, Option.getD_none]
  · intro cid hcid
    rw [Memory.state_at_commit]
    split
    · rfl
    · rename_i idx heq
      rw [findIdx?_none_of_ids m.commits cid hcid 0] at heq
      cases heq

/-- A fresh store with one staged `create("Agent")`. -/
def c3w1 : Memory := (Memory.create Memory.new "Agent").2

/-- `c3w1` after `commit("c1")`: one commit, node 1 live in the head. -/
def c3w : Memory := (Memory.commit c3w1 (some "c1")).2

/-- C3 witness: on the concrete one-commit store, the historical query at
commit id 1 returns the replayed single-node state. -/
theorem state_at_commit_witness :
    Memory.state_at_commit c3w 1 = .ok [(1, ⟨1, "Agent", [], false⟩)] := by
  have hr : Reach c3w := Reach.commit _ _ (Reach.create _ _ Reach.new)
  have h0 : 0 < c3w.commits.length := by decide
  have hmain := (state_at_commit_equals_full_replay c3w hr).1 0 h0
  have hid : (c3w.commits.get ⟨0, h0⟩).id = 1 := rfl
  rw [hid] at hmain
  rw [hmain]
  rfl

/-! ## Claim C8: checkpoints at multiples of the interval -/

/-- C8.  On every engine-reachable store the checkpoint commit ids are
exactly the commit ids divisible by the interval 50 (commit ids coincide
with 1-based commit indices on reachable stores); and a successful commit
appends a checkpoint if and only if the resulting commit count is a
multiple of 50, that checkpoint recording the new commit's id and hash, a
clone of the (unchanged) current head state, and that head's state hash. -/
theorem checkpoints_at_interval (m : Memory) (hm : Reach m) :
    m.checkpoints.map Checkpoint.commit_id
      = ((List.range m.commits.length).map (· + 1)).filter
          (fun k => k % CHECKPOINT_INTERVAL = 0)
    ∧ ∀ msg m', Memory.commit m msg = (.ok (), m') →
      m'.head_state = m.head_state
      ∧ (m'.commits.length % CHECKPOINT_INTERVAL = 0 →
          ∃ c, m'.commits.getLast? = some c
            ∧ m'.checkpoints = m.checkpoints
                ++ [⟨c.id, c.hash, Memory.compute_state_hash m.head_state, m.head_state⟩])
      ∧ (¬ m'.commits.length % CHECKPOINT_INTERVAL = 0 →
          m'.checkpoints = m.checkpoints) := by
  refine ⟨(reach_inv m hm).cpIds, ?_⟩
  intro msg m' hcm
  revert hcm
  by_cases hp : m.pending_mutations.isEmpty
  · rw [Memory.commit, if_pos hp]
    intro hcm
    exact absurd (congrArg Prod.fst hcm) (by simp)
  · rw [Memory.commit, if_neg hp]
    cases hl : m.commits.getLast? with
    | none =>
      dsimp only
      rw [if_neg (by omega : ¬ (1 : Nat) ≠ 1)]
      split
      · rename_i e heq
        cases heq
      cases hrep : Memory.replay m.commits with
      | error e =>
        intro hcm
        exact absurd (congrArg Prod.fst hcm) (by simp)
      | ok s0 =>
        dsimp only
        cases hchk : commitCheckMutations s0 m.pending_mutations with
        | error e =>
          intro hcm
          exact absurd (congrArg Prod.fst hcm) (by simp)
        | ok b =>
          dsimp only
          split
          · rename_i h50
            split
            · rename_i heq
              rw [List.getLast?_concat] at heq
              cases heq
            · rename_i last1 heq
              intro hcm
              injection hcm with hcm1 hcm2
              subst hcm2
              refine ⟨rfl, fun _ => ⟨last1, heq, rfl⟩, fun hn => absurd (by simpa using h50) hn⟩
          · rename_i h50
            intro hcm
            injection hcm with hcm1 hcm2
            subst hcm2
            exact ⟨rfl, fun hy => absurd hy (by simpa using h50), fun _ => rfl⟩
    | some last =>
      dsimp only
      split
      · rename_i e heq
        simp only [Option.map_some'] at heq
        rw [if_neg (by omega : ¬ last.id + 1 ≠ last.id + 1)] at heq
        cases heq
      cases hrep : Memory.replay m.commits with
      | error e =>
        intro hcm
        exact absurd (congrArg Prod.fst hcm) (by simp)
      | ok s0 =>
        dsimp only
        cases hchk : commitCheckMutations s0 m.pending_mutations with
        | error e =>
          intro hcm
          exact absurd (congrArg Prod.fst hcm) (by simp)
        | ok b =>
          dsimp only
          split
          · rename_i h50
            split
            · rename_i heq
              rw [List.getLast?_concat] at heq
              cases heq
            · rename_i last1 heq
              intro hcm
              injection hcm with hcm1 hcm2
              subst hcm2
              refine ⟨rfl, fun _ => ⟨last1, heq, rfl⟩, fun hn => absurd (by simpa using h50) hn⟩
          · rename_i h50
            intro hcm
            injection hcm with hcm1 hcm2
            subst hcm2
            exact ⟨rfl, fun hy => absurd hy (by simpa using h50), fun _ => rfl⟩

/-- C8 witness: on the concrete reachable stores, the checkpoint-id listing
holds, and the successful first commit (count 1, not a multiple of 50)
appends no checkpoint. -/
theorem checkpoints_at_interval_witness :
    c3w1.checkpoints.map Checkpoint.commit_id
      = ((List.range c3w1.commits.length).map (· + 1)).filter
          (fun k => k % CHECKPOINT_INTERVAL = 0)
    ∧ c3w.checkpoints = c3w1.checkpoints := by
  have hr : Reach c3w1 := Reach.create _ _ Reach.new
  have h := checkpoints_at_interval c3w1 hr
  refine ⟨h.1, ?_⟩
  exact ((h.2 (some "c1") c3w rfl).2.2) (by decide)

end Myosotis












